import Mathlib

/-!
Verification of the genesis phylogenetic core against its specification.

The C++ sources are shallowly embedded: the pointer-based arenas of the
tree (links, nodes, edges) become lists of records holding array indices,
machine integers become natural numbers, doubles become rationals, and the
potentially diverging traversal loops become fuel-bounded functions
returning an Option, where `none` models divergence.
-/

namespace Genesis

/-! ## Bitvector (from lib/utils/bitvector.hpp)

The C++ class stores `size_` and a vector `data_` of 64-bit words, sized
`size_ / 64` plus one extra word when `size_ % 64` is nonzero.  Words are
modelled as natural numbers (each below 2 to the 64, which no operation here
needs); `bit_mask_[j]` is the word with only bit `j` set, so testing and
setting a bit become `Nat.testBit` and a bitwise or. -/

structure Bitvector where
  size : ℕ
  data : List ℕ
  deriving DecidableEq, Repr

/-- Number of words allocated by the constructor:
`(size / IntSize) + (size % IntSize == 0 ? 0 : 1)` with `IntSize = 64`. -/
def numWords (size : ℕ) : ℕ :=
  size / 64 + (if size % 64 = 0 then 0 else 1)

/-- The size invariant established by the constructor. -/
def Bitvector.SizeInv (b : Bitvector) : Prop :=
  b.data.length = numWords b.size

instance (b : Bitvector) : Decidable b.SizeInv := by
  unfold Bitvector.SizeInv; infer_instance

/-- `bool Bitvector::get(size_t index)`: bounds check, then
`data_[index / IntSize] & bit_mask_[index % IntSize]`. -/
def Bitvector.get (b : Bitvector) (index : ℕ) : Bool :=
  if b.size ≤ index then
    false
  else
    Nat.testBit (b.data.getD (index / 64) 0) (index % 64)

/-- `void Bitvector::set(size_t index)`: bounds check, then
`data_[index / IntSize] |= bit_mask_[index % IntSize]`. -/
def Bitvector.set (b : Bitvector) (index : ℕ) : Bitvector :=
  if b.size ≤ index then
    b
  else
    let newWord := Nat.lor (b.data.getD (index / 64) 0) (Nat.shiftLeft 1 (index % 64))
    { b with data := b.data.set (index / 64) newWord }

lemma Bitvector.word_index_lt (b : Bitvector) (inv : b.SizeInv) (index : ℕ)
    (h : index < b.size) : index / 64 < b.data.length := by
  rw [inv]
  unfold numWords
  split <;> omega

/-! ## Tree arena model (from unnamed/part_001 and section 3 of the spec)

The C++ tree owns three arrays of heap records, `links_`, `nodes_` and
`edges_`, cross-referenced by pointers.  Following the arena design note of
the spec, pointers become array positions (natural numbers); the stored
`index_` field of each record is kept separately, since `Validate` compares
it against the array position.  Branch lengths become rationals. -/

structure LinkRec where
  idx : ℕ
  next : ℕ
  outer : ℕ
  node : ℕ
  edge : ℕ
  deriving DecidableEq, Repr

structure NodeRec where
  idx : ℕ
  link : ℕ
  deriving DecidableEq, Repr

structure EdgeRec where
  idx : ℕ
  link_p : ℕ
  link_s : ℕ
  branch_length : ℚ
  deriving DecidableEq, Repr

structure Tree where
  links : List LinkRec
  nodes : List NodeRec
  edges : List EdgeRec
  deriving DecidableEq, Repr

/-- Dereference a link pointer; `none` models an invalid pointer. -/
def Tree.linkAt (t : Tree) (i : ℕ) : Option LinkRec := t.links.get? i

def Tree.nodeAt (t : Tree) (i : ℕ) : Option NodeRec := t.nodes.get? i

def Tree.edgeAt (t : Tree) (i : ℕ) : Option EdgeRec := t.edges.get? i

/-- One step `link = link->next_->outer_` of the traversal loop at the end
of `Tree::Validate`. -/
def Tree.step (t : Tree) (l : ℕ) : Option ℕ :=
  (t.linkAt l).bind (fun lr => (t.linkAt lr.next).map (fun nx => nx.outer))

/-- The loop of the `i != array[i]->index_` checks in `Tree::Validate`,
with `f` extracting the stored index. -/
def indicesOk {α : Type} (f : α → ℕ) : ℕ → List α → Bool
  | _, [] => true
  | i, x :: xs => (f x == i) && indicesOk f (i + 1) xs

/-- The pointer comparison `links_.front()->node_ != nodes_.front()`:
in the arena the front node is the record at position 0. -/
def Tree.frontLinkNodeOk (t : Tree) : Bool :=
  match t.links.get? 0 with
  | some l => l.node == 0
  | none => false

/-- Number of steps (at least 1) that the `next->outer` walk starting at the
front link takes until it first comes back to the front link, searching up
to `fuel` steps; `none` when it does not come back (in the C++ code the
`do ... while` loop then never terminates, or dereferences a dangling
pointer).  Since the walk is deterministic, a walk that returns at all
returns within `links.length` steps, so that fuel is sufficient. -/
def Tree.firstReturnAux (t : Tree) : ℕ → ℕ → ℕ → Option ℕ
  | 0, _, _ => none
  | fuel + 1, cur, n =>
    match t.step cur with
    | none => none
    | some nxt => if nxt = 0 then some (n + 1) else t.firstReturnAux fuel nxt (n + 1)

def Tree.firstReturn (t : Tree) : Option ℕ :=
  t.firstReturnAux t.links.length 0 0

/-- `bool Tree::Validate() const` (unnamed/part_001).  The result is an
`Option Bool`: `some b` when the function returns `b`, `none` when the
final traversal loop diverges.  The checks are performed in source order:
emptiness, front link versus front node, the three index loops, then the
`next->outer` walk, after which the function returns `true` without any
further check. -/
def Tree.Validate (t : Tree) : Option Bool :=
  if t.links.isEmpty || t.nodes.isEmpty || t.edges.isEmpty then
    some (t.links.isEmpty && t.nodes.isEmpty && t.edges.isEmpty)
  else if !t.frontLinkNodeOk then some false
  else if !indicesOk LinkRec.idx 0 t.links then some false
  else if !indicesOk NodeRec.idx 0 t.nodes then some false
  else if !indicesOk EdgeRec.idx 0 t.edges then some false
  else (t.firstReturn).map (fun _ => true)

/-- The Euler-tour closure invariant of section 3 of the spec: the
`next->outer` walk from the front link first returns to it after exactly
`links.length` steps, hence passes through every link exactly once. -/
def Tree.tourCovers (t : Tree) : Bool :=
  t.firstReturn == some t.links.length

/-- The invariant of section 3 of the spec that the two links of every
edge resolve to different nodes. -/
def Tree.edgeEndpointsDistinct (t : Tree) : Bool :=
  t.edges.all (fun e =>
    match t.links.get? e.link_p, t.links.get? e.link_s with
    | some lp, some ls => lp.node != ls.node
    | _, _ => false)

lemma indicesOk_eq_true_iff {α : Type} (f : α → ℕ) (k : ℕ) (xs : List α) :
    indicesOk f k xs = true ↔ ∀ i (h : i < xs.length), f (xs.get ⟨i, h⟩) = k + i := by
  induction xs generalizing k with
  | nil => simp [indicesOk]
  | cons x xs ih =>
    simp only [indicesOk, Bool.and_eq_true, beq_iff_eq, ih]
    constructor
    · rintro ⟨h1, h2⟩ i hi
      cases i with
      | zero => simpa using h1
      | succ j =>
        have hj : j < xs.length := by simpa using Nat.lt_of_succ_lt_succ hi
        have := h2 j hj
        simp only [List.length_cons, List.get_cons_succ]
        omega
    · intro h
      refine ⟨by simpa using h 0 (by simp), fun j hj => ?_⟩
      have := h (j + 1) (by simpa using Nat.succ_lt_succ hj)
      simp only [List.get_cons_succ] at this
      omega

/-- A proper two-node tree (one edge, two links), used as a witness input:
each node carries a single link whose next pointer is itself and whose
outer pointer is the link of the other node. -/
def twoNodeTree : Tree where
  links := [⟨0, 0, 1, 0, 0⟩, ⟨1, 1, 0, 1, 0⟩]
  nodes := [⟨0, 0⟩, ⟨1, 1⟩]
  edges := [⟨0, 0, 1, 1⟩]

/-- A malformed tree on which `Tree::Validate` nevertheless returns true:
four links whose `next->outer` walk from the front link is the two-cycle
0, 1, 0, never reaching links 2 and 3, and a single edge both of whose
links resolve to node 0. -/
def cexTreeC1 : Tree where
  links := [⟨0, 0, 1, 0, 0⟩, ⟨1, 1, 0, 0, 0⟩, ⟨2, 2, 3, 0, 0⟩, ⟨3, 3, 2, 0, 0⟩]
  nodes := [⟨0, 0⟩]
  edges := [⟨0, 0, 1, 1⟩]

/-- C9: for every Bitvector `b` and every index at or past `b.size`, `get`
returns false and `set` returns `b` unchanged; and under the constructor
size invariant every in-range index accesses a word inside the allocated
data array. -/
theorem C9_bitvector_bounds_checked_accessors (b : Bitvector) (i : ℕ) :
    (b.size ≤ i → b.get i = false ∧ b.set i = b)
    ∧ (b.SizeInv → i < b.size → i / 64 < b.data.length) := by
  constructor
  · intro h
    constructor
    · unfold Bitvector.get
      rw [if_pos h]
    · unfold Bitvector.set
      rw [if_pos h]
  · intro inv h
    exact b.word_index_lt inv i h

/-- Witness for C9 at the concrete Bitvector of size 5 with one word. -/
theorem C9_witness :
    ((Bitvector.mk 5 [0]).get 7 = false ∧ (Bitvector.mk 5 [0]).set 7 = Bitvector.mk 5 [0])
    ∧ (3 / 64 < (Bitvector.mk 5 [0]).data.length) :=
  ⟨(C9_bitvector_bounds_checked_accessors (Bitvector.mk 5 [0]) 7).1 (by decide),
   (C9_bitvector_bounds_checked_accessors (Bitvector.mk 5 [0]) 3).2 (by decide) (by decide)⟩

/-- On a tree with all three arrays non-empty, `Validate` reduces to the
front-link check, the three index checks, and the final traversal loop. -/
lemma Tree.validate_of_nonempty (t : Tree)
    (hl : t.links ≠ []) (hn : t.nodes ≠ []) (he : t.edges ≠ []) :
    t.Validate =
      (if t.frontLinkNodeOk
          && indicesOk LinkRec.idx 0 t.links
          && indicesOk NodeRec.idx 0 t.nodes
          && indicesOk EdgeRec.idx 0 t.edges
       then t.firstReturn.map (fun _ => true)
       else some false) := by
  unfold Tree.Validate
  have hcond : (t.links.isEmpty || t.nodes.isEmpty || t.edges.isEmpty) = false := by
    simp [List.isEmpty_iff, hl, hn, he]
  rw [if_neg (by simp [hcond])]
  cases hf : t.frontLinkNodeOk
    <;> cases h1 : indicesOk LinkRec.idx 0 t.links
    <;> cases h2 : indicesOk NodeRec.idx 0 t.nodes
    <;> cases h3 : indicesOk EdgeRec.idx 0 t.edges
    <;> simp

/-- C5: `Validate` returns true on the all-empty tree; returns false when
some but not all of the three arrays are empty; and on a tree with all
three arrays non-empty it returns false whenever some element of one of
the arrays does not store its own position as its index. -/
theorem C5_validate_emptiness_and_index_checks (t : Tree) :
    (t.links = [] ∧ t.nodes = [] ∧ t.edges = [] → t.Validate = some true)
    ∧ ((t.links = [] ∨ t.nodes = [] ∨ t.edges = []) →
        ¬(t.links = [] ∧ t.nodes = [] ∧ t.edges = []) → t.Validate = some false)
    ∧ (t.links ≠ [] → t.nodes ≠ [] → t.edges ≠ [] →
        ¬((∀ i (h : i < t.links.length), (t.links.get ⟨i, h⟩).idx = i)
          ∧ (∀ i (h : i < t.nodes.length), (t.nodes.get ⟨i, h⟩).idx = i)
          ∧ (∀ i (h : i < t.edges.length), (t.edges.get ⟨i, h⟩).idx = i)) →
        t.Validate = some false) := by
  refine ⟨?_, ?_, ?_⟩
  · rintro ⟨hl, hn, he⟩
    simp [Tree.Validate, hl, hn, he]
  · intro hor hne
    unfold Tree.Validate
    have hcond : (t.links.isEmpty || t.nodes.isEmpty || t.edges.isEmpty) = true := by
      rcases hor with h | h | h <;> simp [h]
    rw [if_pos hcond]
    have hres : (t.links.isEmpty && t.nodes.isEmpty && t.edges.isEmpty) = false := by
      cases hc : (t.links.isEmpty && t.nodes.isEmpty && t.edges.isEmpty) with
      | false => rfl
      | true =>
        simp only [Bool.and_eq_true, List.isEmpty_iff] at hc
        exact absurd ⟨hc.1.1, hc.1.2, hc.2⟩ hne
    rw [hres]
  · intro hl hn he hbad
    rw [t.validate_of_nonempty hl hn he]
    have hidx : ¬(indicesOk LinkRec.idx 0 t.links = true
        ∧ indicesOk NodeRec.idx 0 t.nodes = true
        ∧ indicesOk EdgeRec.idx 0 t.edges = true) := by
      intro hc
      apply hbad
      refine ⟨?_, ?_, ?_⟩
      · have := (indicesOk_eq_true_iff LinkRec.idx 0 t.links).mp hc.1
        intro i h; simpa using this i h
      · have := (indicesOk_eq_true_iff NodeRec.idx 0 t.nodes).mp hc.2.1
        intro i h; simpa using this i h
      · have := (indicesOk_eq_true_iff EdgeRec.idx 0 t.edges).mp hc.2.2
        intro i h; simpa using this i h
    rw [if_neg (by simp only [Bool.and_eq_true]; tauto)]

/-- Witness for C5 at concrete trees: the all-empty tree validates, a tree
with only a node does not, and a one-node one-link one-edge tree whose edge
stores index 7 does not. -/
theorem C5_witness :
    (Tree.mk [] [] []).Validate = some true
    ∧ (Tree.mk [] [⟨0, 0⟩] []).Validate = some false
    ∧ (Tree.mk [⟨0, 0, 0, 0, 0⟩] [⟨0, 0⟩] [⟨7, 0, 0, 1⟩]).Validate = some false :=
  ⟨(C5_validate_emptiness_and_index_checks (Tree.mk [] [] [])).1 (by decide),
   (C5_validate_emptiness_and_index_checks (Tree.mk [] [⟨0, 0⟩] [])).2.1
     (by simp) (by simp),
   (C5_validate_emptiness_and_index_checks
       (Tree.mk [⟨0, 0, 0, 0, 0⟩] [⟨0, 0⟩] [⟨7, 0, 0, 1⟩])).2.2
     (by simp) (by simp) (by simp)
     (fun hc => by have := hc.2.2 0 (by simp); simp at this)⟩

/-- C1 counterexample: `Validate` returns true on `cexTreeC1` although the
`next->outer` walk from the first link does not pass through every link,
and although the single edge has both of its links on the same node. -/
theorem C1_counterexample :
    cexTreeC1.Validate = some true
    ∧ cexTreeC1.tourCovers = false
    ∧ cexTreeC1.edgeEndpointsDistinct = false := by decide

/-- C1 amended: on a tree with all three arrays non-empty, `Validate`
returns true exactly when the front link points to the front node, all
three index checks pass, and the `next->outer` walk from the front link
eventually returns to it; `Validate` does not require that walk to cover
every link, nor the two links of an edge to resolve to different nodes. -/
theorem C1_validate_returns_true_iff (t : Tree)
    (hl : t.links ≠ []) (hn : t.nodes ≠ []) (he : t.edges ≠ []) :
    t.Validate = some true ↔
      (t.frontLinkNodeOk = true
       ∧ indicesOk LinkRec.idx 0 t.links = true
       ∧ indicesOk NodeRec.idx 0 t.nodes = true
       ∧ indicesOk EdgeRec.idx 0 t.edges = true
       ∧ (∃ n, t.firstReturn = some n)) := by
  rw [t.validate_of_nonempty hl hn he]
  cases hf : t.frontLinkNodeOk
    <;> cases h1 : indicesOk LinkRec.idx 0 t.links
    <;> cases h2 : indicesOk NodeRec.idx 0 t.nodes
    <;> cases h3 : indicesOk EdgeRec.idx 0 t.edges
    <;> simp

/-- Witness for C1 at the proper two-node tree. -/
theorem C1_witness : twoNodeTree.Validate = some true :=
  (C1_validate_returns_true_iff twoNodeTree (by simp [twoNodeTree])
      (by simp [twoNodeTree]) (by simp [twoNodeTree])).mpr
    ⟨by decide, by decide, by decide, by decide, 2, by decide⟩

/-! ## Levelorder traversal

Modelled from the spec: the levelorder iterator itself is not part of the
sources, only its uses in `NodeDepthVector` and `NodeDistanceMatrix` are.
Per section 4.1 of the spec it yields (Link, Node, Edge) triples rooted at
a specified node, visits every node of the tree exactly once, reports
whether the current step is the first one, and at a step that visits node
`u` through link `l`, the link on the opposite end of the same edge leads
to the node one step closer to the seed (`parent-distance + 1`).  This is
realised as a breadth-first walk over the half-edge structure: the queue
starts with the seed link; popping a link visits its node and enqueues the
outer links of the remaining links around that node (for the seed, of all
links around its node, since every incident branch leads away from the
seed).  All loops are fuel-bounded; `none` models divergence on a
malformed arena. -/

/-- Walk the `next` ring from `cur` until coming back to `stop`, collecting
the outer link of every link passed.  These are the links through which
the traversal enters the neighbouring nodes. -/
def Tree.ringOuters (t : Tree) (stop : ℕ) : ℕ → ℕ → Option (List ℕ)
  | 0, _ => none
  | fuel + 1, cur =>
    if cur = stop then some []
    else
      match t.linkAt cur with
      | none => none
      | some c => (t.ringOuters stop fuel c.next).map (fun rest => c.outer :: rest)

/-- The links pushed when the traversal leaves the visited link `l`: the
outer links of the ring around the node of `l`, excluding `l` itself,
whose edge leads back towards the seed. -/
def Tree.childOuters (t : Tree) (l : ℕ) : Option (List ℕ) :=
  match t.linkAt l with
  | none => none
  | some lr => t.ringOuters l (t.links.length + 1) lr.next

/-- Process the traversal queue, returning the list of visited links.
Each unit of fuel pays for one visit. -/
def Tree.levelorderAux (t : Tree) : ℕ → List ℕ → Option (List ℕ)
  | _, [] => some []
  | 0, _ :: _ => none
  | fuel + 1, l :: rest =>
    match t.childOuters l with
    | none => none
    | some cs => (t.levelorderAux fuel (rest ++ cs)).map (fun vs => l :: vs)

/-- The visited links of a levelorder traversal seeded at `startLink`, in
visit order; the first element is the seed itself (the step for which
`IsFirstIteration` holds).  The seed step enqueues the outer links of all
links around the seed node, in ring order ending with the seed link. -/
def Tree.levelorder (t : Tree) (startLink : ℕ) (fuel : ℕ) : Option (List ℕ) :=
  match t.linkAt startLink with
  | none => none
  | some lr =>
    match t.ringOuters startLink (t.links.length + 1) lr.next with
    | none => none
    | some cs => (t.levelorderAux fuel (cs ++ [lr.outer])).map (fun vs => startLink :: vs)

/-- Default fuel: a terminating run of the C++ iterator performs at most
`(L+2) ^ (L+2)` visits on an arena with `L` links (a chain of enqueue
steps cannot repeat a link without diverging, and each visit enqueues
fewer than `L` links), so with this fuel `none` models divergence. -/
def Tree.loFuel (t : Tree) : ℕ := (t.links.length + 2) ^ (t.links.length + 2)

/-! ## NodeDepthVector (from unnamed/part_001, lines 139 to 169) -/

/-- One non-first step of `NodeDepthVector`:
`vec[it.Node()->Index()] = 1 + vec[it.Link()->Outer()->Node()->Index()]`.
Reads and writes go through the stored `index_` fields of the node
records, exactly as the accessor `Index()` does. -/
def Tree.depthStep (t : Tree) (vec : List ℤ) (l : ℕ) : Option (List ℤ) :=
  match t.linkAt l with
  | none => none
  | some lr =>
    match t.nodeAt lr.node, (t.linkAt lr.outer).bind (fun ol => t.nodeAt ol.node) with
    | some nd, some pnd => some (vec.set nd.idx (1 + (vec.get? pnd.idx).getD (-1)))
    | _, _ => none

/-- `std::vector<int> Tree::NodeDepthVector(NodeType* node)`: the result
vector is filled with -1, its entry 0 is set to 0 (the source writes
`vec[0] = 0`), and a levelorder traversal seeded at the given node skips
its first step and sets every other visited node to one more than the
entry of the node on the far side of the visited link. -/
def Tree.NodeDepthVector (t : Tree) (nodePos : ℕ) : Option (List ℤ) :=
  match t.nodeAt nodePos with
  | none => none
  | some nd =>
    match t.levelorder nd.link t.loFuel with
    | none => none
    | some visits =>
      (visits.drop 1).foldlM t.depthStep ((List.replicate t.nodes.length (-1 : ℤ)).set 0 0)

/-- The assertion `assert(vec[it.Node()->Index()] == -1)` guarding each
non-first step of `NodeDepthVector`: it demands that the visited node has
not been written yet.  `some false` means some step trips the assert. -/
def Tree.depthAsserts (t : Tree) (nodePos : ℕ) : Option Bool :=
  match t.nodeAt nodePos with
  | none => none
  | some nd =>
    match t.levelorder nd.link t.loFuel with
    | none => none
    | some visits =>
      (List.foldlM (fun (st : List ℤ × Bool) l =>
          match t.linkAt l with
          | none => none
          | some lr =>
            match t.nodeAt lr.node with
            | none => none
            | some ndv =>
              (t.depthStep st.1 l).map
                (fun vec2 => (vec2, st.2 && ((st.1.get? ndv.idx).getD 0 == -1))))
        ((List.replicate t.nodes.length (-1 : ℤ)).set 0 0, true)
        (visits.drop 1)).map (fun (st : List ℤ × Bool) => st.2)

/-- C2: failing input.  On the proper two-node tree, `NodeDepthVector`
seeded at node 1 returns the vector [0, -1]: the entry at the seed node 1
is -1, not 0, and is negative, because the source seeds `vec[0] = 0`
instead of `vec[node->Index()] = 0`; the step that visits node 0 also
trips the assertion `assert(vec[it.Node()->Index()] == -1)`, since entry 0
was pre-set.  Seeded at node 0 the function behaves as specified. -/
theorem C2_node_depth_vector_failing_input :
    twoNodeTree.NodeDepthVector 1 = some [0, -1]
    ∧ twoNodeTree.depthAsserts 1 = some false
    ∧ twoNodeTree.NodeDepthVector 0 = some [0, 1] := by decide

/-! ## NodeDistanceMatrix (from unnamed/part_001, lines 175 to 206)

The `Matrix<double>` is modelled as a function from two indices to a
rational, functionally updated; `new Matrix(n, n)` zero-fills its backing
vector, so the initial matrix is the zero function. -/

/-- Functional update of one matrix entry. -/
def mset (m : ℕ → ℕ → ℚ) (i j : ℕ) (v : ℚ) : ℕ → ℕ → ℚ :=
  fun a b => if a = i then (if b = j then v else m a b) else m a b

/-- One non-first step of a `NodeDistanceMatrix` row:
`mat(row, it.Node()) = it.Edge()->data.branch_length + mat(row, it.Link()->Outer()->Node())`. -/
def Tree.distStep (t : Tree) (row : ℕ) (m : ℕ → ℕ → ℚ) (l : ℕ) : Option (ℕ → ℕ → ℚ) :=
  match t.linkAt l with
  | none => none
  | some lr =>
    match t.nodeAt lr.node,
          (t.linkAt lr.outer).bind (fun ol => t.nodeAt ol.node),
          t.edgeAt lr.edge with
    | some nd, some pnd, some ed =>
      some (mset m row nd.idx (ed.branch_length + m row pnd.idx))
    | _, _, _ => none

/-- One row of `NodeDistanceMatrix`: set the diagonal entry of the row
node to 0, then walk a levelorder traversal seeded at the row node,
skipping its first step. -/
def Tree.distRow (t : Tree) (m : ℕ → ℕ → ℚ) (nd : NodeRec) : Option (ℕ → ℕ → ℚ) :=
  match t.levelorder nd.link t.loFuel with
  | none => none
  | some visits => (visits.drop 1).foldlM (t.distStep nd.idx) (mset m nd.idx nd.idx 0)

/-- `Matrix<double>* Tree::NodeDistanceMatrix()`: one levelorder traversal
per row node. -/
def Tree.NodeDistanceMatrix (t : Tree) : Option (ℕ → ℕ → ℚ) :=
  t.nodes.foldlM t.distRow (fun _ _ => 0)

/-! ## Preorder traversal and HasIdenticalTopology

The preorder iterator is likewise modelled from the spec (only its uses
are in the sources): a depth-first variant of the traversal above, which
pushes the outgoing links of the visited node in front of the remaining
queue instead of behind it. `Tree::Equal` (unnamed/part_001, lines 241 to
274) compares the three array sizes and then runs both preorder
traversals in parallel, requiring equal node rank at every step and both
traversals to end together; `HasIdenticalTopology` is `Equal` with the
always-true comparator, so it reduces to the size checks plus equality of
the rank sequences along the preorder traversals. -/

def Tree.preorderAux (t : Tree) : ℕ → List ℕ → Option (List ℕ)
  | _, [] => some []
  | 0, _ :: _ => none
  | fuel + 1, l :: rest =>
    match t.childOuters l with
    | none => none
    | some cs => (t.preorderAux fuel (cs ++ rest)).map (fun vs => l :: vs)

/-- The visited links of the preorder traversal from the default root,
the front link (as used by the parameterless `BeginPreorder()`). -/
def Tree.preorderLinks (t : Tree) : Option (List ℕ) :=
  match t.linkAt 0 with
  | none => none
  | some lr =>
    match t.ringOuters 0 (t.links.length + 1) lr.next with
    | none => none
    | some cs => (t.preorderAux t.loFuel (cs ++ [lr.outer])).map (fun vs => 0 :: vs)

/-- `Node::Rank()` of the node visited through link `l`: the number of
further links in the ring around that node. -/
def Tree.rankOfLink (t : Tree) (l : ℕ) : Option ℕ :=
  (t.childOuters l).map List.length

/-- The sequence of node ranks along the preorder traversal. -/
def Tree.preorderRanks (t : Tree) : Option (List ℕ) :=
  (t.preorderLinks).bind (fun ls => ls.mapM t.rankOfLink)

/-- `Tree::HasIdenticalTopology` via `Tree::Equal` with the always-true
comparator: equal array sizes and equal rank sequences along the parallel
preorder traversals (sequence equality covers both trees ending
together). -/
def Tree.HasIdenticalTopology (l r : Tree) : Bool :=
  (l.links.length == r.links.length)
  && (l.nodes.length == r.nodes.length)
  && (l.edges.length == r.edges.length)
  && (match l.preorderRanks, r.preorderRanks with
      | some a, some b => a == b
      | _, _ => false)

/-! ## Placement records and Samples (from src/placement/placements.hpp) -/

structure PqueryPlacement where
  edge_num : ℤ
  likelihood : ℚ
  like_weight_ratio : ℚ
  distal_length : ℚ
  pendant_length : ℚ
  parsimony : ℤ
  deriving DecidableEq, Repr

structure PqueryName where
  name : String
  multiplicity : ℚ
  deriving DecidableEq, Repr

structure Pquery where
  placements : List PqueryPlacement
  names : List PqueryName
  deriving DecidableEq, Repr

/-- `class Placements` (a Sample): a tree, an ordered pquery collection,
and free-form string metadata (the unordered map is modelled as an
association list). -/
structure Placements where
  pqueries : List Pquery
  tree : Tree
  metadata : List (String × String)
  deriving DecidableEq, Repr

/-- Modelled from the spec: `bool Placements::Merge(Placements& other)` is
only declared in src/placement/placements.hpp; its body is not among the
sources.  Per sections 4.2 and 7 of the spec it fails, returning false
and leaving both Samples unchanged, unless `HasIdenticalTopology` holds
between the two trees; on success it appends the pqueries of `other`
(which keep their `edge_num` and are re-resolved against the first tree
via `EdgeNumMap`), unions the metadata, and consumes `other`.  The state
of both Samples after the call is returned alongside the boolean. -/
def Placements.Merge (s o : Placements) : Bool × Placements × Placements :=
  if Tree.HasIdenticalTopology s.tree o.tree then
    (true,
     { s with pqueries := s.pqueries ++ o.pqueries,
              metadata := s.metadata ++ o.metadata.filter
                (fun kv => ¬ s.metadata.any (fun kv2 => kv2.1 == kv.1)) },
     { o with pqueries := [] })
  else
    (false, s, o)

/-- C4: when the two trees do not have identical topology, `Merge` returns
false and both Samples are left exactly as they were: same pquery
collections, same trees, same metadata. -/
theorem C4_merge_topology_mismatch_unchanged (s o : Placements)
    (h : Tree.HasIdenticalTopology s.tree o.tree = false) :
    (s.Merge o).1 = false ∧ (s.Merge o).2.1 = s ∧ (s.Merge o).2.2 = o := by
  unfold Placements.Merge
  rw [h]
  exact ⟨rfl, rfl, rfl⟩

/-- Witness for C4: two Samples over trees of different sizes. -/
theorem C4_witness :
    ((Placements.mk [] twoNodeTree []).Merge (Placements.mk [] cexTreeC1 [])).1 = false
    ∧ ((Placements.mk [] twoNodeTree []).Merge (Placements.mk [] cexTreeC1 [])).2.1
        = Placements.mk [] twoNodeTree []
    ∧ ((Placements.mk [] twoNodeTree []).Merge (Placements.mk [] cexTreeC1 [])).2.2
        = Placements.mk [] cexTreeC1 [] :=
  C4_merge_topology_mismatch_unchanged
    (Placements.mk [] twoNodeTree []) (Placements.mk [] cexTreeC1 []) (by decide)

/-! ## Earth Mover Distance

Modelled from the spec: `Placements::EMD` is only declared in
src/placement/placements.hpp; its body is not among the sources.  Section
4.3 of the spec prescribes: per-edge signed masses (left with sign +1,
right with sign -1), one postorder traversal accumulating the net signed
mass of the entire subtree hanging below each edge, and the total
distance as the sum over all edges of the absolute subtree net mass times
the branch length of the edge.

The rooted tree is represented by the forest of edges hanging below a
node: `EForest.cons e bl below rest` is an edge with external number `e`
and branch length `bl`, the forest `below` beneath its far node, and the
remaining sibling edges `rest`.  A distribution of placement mass is a
function from edge numbers to rationals (the per-edge sums of
`like_weight_ratio`). -/

inductive EForest where
  | nil : EForest
  | cons : ℕ → ℚ → EForest → EForest → EForest
  deriving DecidableEq, Repr

/-- Net signed mass of a forest: the mass on each edge plus everything
beneath it. -/
def EForest.massBelow (m : ℕ → ℚ) : EForest → ℚ
  | .nil => 0
  | .cons e _ below rest => m e + massBelow m below + massBelow m rest

/-- Total transport cost: each edge contributes the absolute net mass of
its entire subtree times its branch length. -/
def EForest.cost (m : ℕ → ℚ) : EForest → ℚ
  | .nil => 0
  | .cons e bl below rest =>
      |m e + massBelow m below| * bl + cost m below + cost m rest

/-- The external edge numbers occurring in a forest. -/
def EForest.edgeIds : EForest → List ℕ
  | .nil => []
  | .cons e _ below rest => e :: below.edgeIds ++ rest.edgeIds

/-- The branch lengths occurring in a forest. -/
def EForest.branchLens : EForest → List ℚ
  | .nil => []
  | .cons _ bl below rest => bl :: below.branchLens ++ rest.branchLens

/-- `EMD(left, right)`: transport cost of the signed mass difference. -/
def EMD (f : EForest) (left right : ℕ → ℚ) : ℚ :=
  f.cost (fun e => left e - right e)

lemma EForest.massBelow_congr (m m2 : ℕ → ℚ) (f : EForest)
    (h : ∀ e ∈ f.edgeIds, m e = m2 e) : f.massBelow m = f.massBelow m2 := by
  induction f with
  | nil => rfl
  | cons e bl below rest ihb ihr =>
    simp only [massBelow]
    rw [h e (by simp [edgeIds]),
      ihb (fun x hx => h x (by simp [edgeIds, hx])),
      ihr (fun x hx => h x (by simp [edgeIds, hx]))]

lemma EForest.massBelow_neg (m : ℕ → ℚ) (f : EForest) :
    f.massBelow (fun e => -(m e)) = -(f.massBelow m) := by
  induction f with
  | nil => simp [massBelow]
  | cons e bl below rest ihb ihr => simp [massBelow, ihb, ihr]; ring

lemma EForest.cost_neg (m : ℕ → ℚ) (f : EForest) :
    f.cost (fun e => -(m e)) = f.cost m := by
  induction f with
  | nil => rfl
  | cons e bl below rest ihb ihr =>
    simp only [cost, massBelow_neg, ihb, ihr]
    congr 1
    congr 1
    rw [show (-(m e) + -(below.massBelow m)) = -(m e + below.massBelow m) by ring]
    rw [abs_neg]

lemma EForest.massBelow_const_zero (f : EForest) : f.massBelow (fun _ => 0) = 0 := by
  induction f with
  | nil => rfl
  | cons e bl below rest ihb ihr => simp [massBelow, ihb, ihr]

lemma EForest.cost_const_zero (f : EForest) : f.cost (fun _ => 0) = 0 := by
  induction f with
  | nil => rfl
  | cons e bl below rest ihb ihr => simp [cost, massBelow_const_zero, ihb, ihr]

lemma EForest.massBelow_zero_of (m : ℕ → ℚ) (f : EForest)
    (h : ∀ e ∈ f.edgeIds, m e = 0) : f.massBelow m = 0 := by
  rw [f.massBelow_congr m (fun _ => 0) h, f.massBelow_const_zero]

lemma EForest.cost_nonneg (m : ℕ → ℚ) (f : EForest)
    (h : ∀ bl ∈ f.branchLens, 0 ≤ bl) : 0 ≤ f.cost m := by
  induction f with
  | nil => simp [cost]
  | cons e bl below rest ihb ihr =>
    simp only [cost]
    have h1 : 0 ≤ |m e + below.massBelow m| * bl :=
      mul_nonneg (abs_nonneg _) (h bl (by simp [branchLens]))
    have h2 := ihb (fun x hx => h x (by simp [branchLens, hx]))
    have h3 := ihr (fun x hx => h x (by simp [branchLens, hx]))
    linarith

lemma EForest.cost_eq_zero_iff (m : ℕ → ℚ) (f : EForest)
    (h : ∀ bl ∈ f.branchLens, 0 < bl) :
    f.cost m = 0 ↔ ∀ e ∈ f.edgeIds, m e = 0 := by
  induction f with
  | nil => simp [cost, edgeIds]
  | cons e bl below rest ihb ihr =>
    have hbl : 0 < bl := h bl (by simp [branchLens])
    have hb := ihb (fun x hx => h x (by simp [branchLens, hx]))
    have hr := ihr (fun x hx => h x (by simp [branchLens, hx]))
    have hbn : 0 ≤ below.cost m :=
      below.cost_nonneg m (fun x hx => le_of_lt (h x (by simp [branchLens, hx])))
    have hrn : 0 ≤ rest.cost m :=
      rest.cost_nonneg m (fun x hx => le_of_lt (h x (by simp [branchLens, hx])))
    have han : 0 ≤ |m e + below.massBelow m| * bl :=
      mul_nonneg (abs_nonneg _) (le_of_lt hbl)
    constructor
    · intro h0
      simp only [cost] at h0
      have hb0 : below.cost m = 0 := by linarith
      have hr0 : rest.cost m = 0 := by linarith
      have ha0 : |m e + below.massBelow m| * bl = 0 := by linarith
      have hbz := hb.mp hb0
      have hmb : below.massBelow m = 0 := below.massBelow_zero_of m hbz
      have hme : m e = 0 := by
        rcases mul_eq_zero.mp ha0 with hc | hc
        · have := abs_eq_zero.mp hc
          rw [hmb] at this
          linarith
        · exact absurd hc (ne_of_gt hbl)
      intro x hx
      simp only [edgeIds, List.mem_cons, List.mem_append] at hx
      rcases hx with (rfl | hx) | hx
      · exact hme
      · exact hbz x hx
      · exact hr.mp hr0 x hx
    · intro hz
      simp only [cost]
      have hme : m e = 0 := hz e (by simp [edgeIds])
      have hbz : ∀ x ∈ below.edgeIds, m x = 0 :=
        fun x hx => hz x (by simp [edgeIds, hx])
      have hrz : ∀ x ∈ rest.edgeIds, m x = 0 :=
        fun x hx => hz x (by simp [edgeIds, hx])
      rw [hb.mpr hbz, hr.mpr hrz, below.massBelow_zero_of m hbz, hme]
      simp

/-- C3 counterexample: on a tree whose only edge has branch length 0, the
EMD of the all-ones and the all-zero distributions is 0 although the two
distributions differ on that edge; spec section 3 allows zero branch
lengths (non-negative reals). -/
theorem C3_counterexample :
    EMD (EForest.cons 0 0 EForest.nil EForest.nil) (fun _ => 1) (fun _ => 0) = 0
    ∧ ¬(∀ e ∈ (EForest.cons 0 0 EForest.nil EForest.nil).edgeIds,
          (fun _ => (1 : ℚ)) e = (fun _ => (0 : ℚ)) e) := by
  constructor
  · simp [EMD, EForest.cost, EForest.massBelow]
  · intro h
    have := h 0 (by simp [EForest.edgeIds])
    norm_num at this

/-- C3 amended: EMD is symmetric and vanishes on identical Samples, and
when every branch length is positive (rather than merely non-negative) it
is zero exactly when the two per-edge mass distributions agree on every
edge of the tree. -/
theorem C3_emd_symmetry_self_zero_iff (f : EForest) (a b s : ℕ → ℚ) :
    EMD f a b = EMD f b a
    ∧ EMD f s s = 0
    ∧ ((∀ bl ∈ f.branchLens, 0 < bl) →
        (EMD f a b = 0 ↔ ∀ e ∈ f.edgeIds, a e = b e)) := by
  refine ⟨?_, ?_, ?_⟩
  · unfold EMD
    have : (fun e => b e - a e) = (fun e => -((fun x => a x - b x) e)) := by
      funext e; ring
    rw [this, EForest.cost_neg]
  · unfold EMD
    have hz : (fun e => s e - s e) = (fun _ : ℕ => (0 : ℚ)) := by funext e; ring
    rw [hz, f.cost_const_zero]
  · intro hpos
    unfold EMD
    rw [f.cost_eq_zero_iff _ hpos]
    constructor
    · intro h e he
      have := h e he
      linarith
    · intro h e he
      rw [h e he]
      ring

/-- Witness for C3 at a one-edge tree of branch length 1 with the
constant distributions 1 and 1/2. -/
theorem C3_witness :
    EMD (EForest.cons 0 1 EForest.nil EForest.nil) (fun _ => 1) (fun _ => 1 / 2)
      = EMD (EForest.cons 0 1 EForest.nil EForest.nil) (fun _ => 1 / 2) (fun _ => 1)
    ∧ EMD (EForest.cons 0 1 EForest.nil EForest.nil) (fun _ => 1) (fun _ => 1) = 0
    ∧ (EMD (EForest.cons 0 1 EForest.nil EForest.nil) (fun _ => 1) (fun _ => 1 / 2) = 0
        ↔ ∀ e ∈ (EForest.cons 0 1 EForest.nil EForest.nil).edgeIds,
            (fun _ => (1 : ℚ)) e = (fun _ => (1 / 2 : ℚ)) e) :=
  ⟨(C3_emd_symmetry_self_zero_iff (EForest.cons 0 1 EForest.nil EForest.nil)
      (fun _ => 1) (fun _ => 1 / 2) (fun _ => 1)).1,
   (C3_emd_symmetry_self_zero_iff (EForest.cons 0 1 EForest.nil EForest.nil)
      (fun _ => 1) (fun _ => 1 / 2) (fun _ => 1)).2.1,
   (C3_emd_symmetry_self_zero_iff (EForest.cons 0 1 EForest.nil EForest.nil)
      (fun _ => 1) (fun _ => 1 / 2) (fun _ => 1)).2.2
     (by intro x hx
         simp only [EForest.branchLens, List.append_nil, List.mem_cons,
           List.not_mem_nil, or_false] at hx
         rw [hx]
         norm_num)⟩

/-! ## Jplace writer (from lib/placement/io/jplace_writer.cpp)

The JSON document built from freely allocated, type-tagged value objects
becomes a tagged-variant value type owned by value (the design note of
spec section 9).  The lib-era Sample iterated by the writer exposes, per
placement, `edge_num()`, `likelihood`, `like_weight_ratio`,
`proximal_length`, `pendant_length` and the branch length of the
referenced edge (`edge().data.branch_length`, carried here directly in
the placement record), and per name `name` and `multiplicity`. -/

inductive Json where
  | str : String → Json
  | num : ℚ → Json
  | arr : List Json → Json
  | obj : List (String × Json) → Json

/-- Key lookup in a JSON object (first match, insertion order). -/
def Json.get (j : Json) (key : String) : Option Json :=
  match j with
  | .obj kvs => (kvs.find? (fun kv => kv.1 == key)).map (fun kv => kv.2)
  | _ => none

def Json.hasKey (j : Json) (key : String) : Bool :=
  match j with
  | .obj kvs => kvs.any (fun kv => kv.1 == key)
  | _ => false

/-- Entry of a JSON array. -/
def Json.at (j : Json) (i : ℕ) : Option Json :=
  match j with
  | .arr xs => xs.get? i
  | _ => none

structure WPlacement where
  edge_num : ℤ
  likelihood : ℚ
  like_weight_ratio : ℚ
  proximal_length : ℚ
  pendant_length : ℚ
  branch_length : ℚ
  deriving DecidableEq, Repr

structure WName where
  name : String
  multiplicity : ℚ
  deriving DecidableEq, Repr

structure WPquery where
  placements : List WPlacement
  names : List WName
  deriving DecidableEq, Repr

structure Sample where
  pqueries : List WPquery
  deriving DecidableEq, Repr

/-- The `p`-tuple of one placement; the fourth entry converts from
proximal to distal length:
`pqry_place.edge().data.branch_length - pqry_place.proximal_length`. -/
def placementJson (p : WPlacement) : Json :=
  Json.arr [Json.num p.edge_num, Json.num p.likelihood, Json.num p.like_weight_ratio,
    Json.num (p.branch_length - p.proximal_length), Json.num p.pendant_length]

/-- The object emitted per pquery: the `p` array, then either `nm` (pairs
of name and multiplicity) when some name has nonzero multiplicity, or `n`
(bare name strings) otherwise. -/
def pqueryJson (q : WPquery) : Json :=
  Json.obj (("p", Json.arr (q.placements.map placementJson)) ::
    (if q.names.any (fun n => n.multiplicity != 0) then
      [("nm", Json.arr (q.names.map
        (fun n => Json.arr [Json.str n.name, Json.num n.multiplicity])))]
    else
      [("n", Json.arr (q.names.map (fun n => Json.str n.name)))]))

/-- `void JplaceWriter::to_document(Sample, JsonDocument)`: keys in source
order.  The Newick serialization of the tree and the invocation line come
from external collaborators (Newick processor, global options) and are
passed in as strings. -/
def JplaceWriter.to_document (smp : Sample) (treeStr invocation : String) : Json :=
  Json.obj
    [("tree", Json.str treeStr),
     ("placements", Json.arr (smp.pqueries.map pqueryJson)),
     ("fields", Json.arr [Json.str "edge_num", Json.str "likelihood",
        Json.str "like_weight_ratio", Json.str "distal_length",
        Json.str "pendant_length"]),
     ("version", Json.num 3),
     ("metadata", Json.obj [("invocation", Json.str invocation)])]

/-- The file system, as a map from file names to JSON contents; the
string-level JSON printer is an external collaborator, so file contents
are modelled at the document level. -/
def FileSys : Type := String → Option Json

/-- `utils::file_exists`, modelled from its name and use. -/
def file_exists (fs : FileSys) (name : String) : Bool := (fs name).isSome

/-- `bool JplaceWriter::to_file(Sample, filename)`: refuses to overwrite
an existing file (warns and returns false), otherwise writes the document
produced by `to_document` (via `to_string`) and reports success
(`utils::file_write` is modelled as always succeeding). -/
def JplaceWriter.to_file (fs : FileSys) (smp : Sample) (treeStr invocation : String)
    (filename : String) : Bool × FileSys :=
  if file_exists fs filename then
    (false, fs)
  else
    (true, fun n => if n = filename then
        some (JplaceWriter.to_document smp treeStr invocation)
      else fs n)

/-! ## Well-formed trees and path sums (for NodeDistanceMatrix)

Validity of a tree is formalised as an executable predicate: the stored
indices and back-references are consistent, `outer` is an involution,
`next` stays at its node and its ring reaches every link of that node,
and the levelorder enumeration from every node visits every node exactly
once (the section 4.1 property of traversals on valid trees).  The spec
side of the distance claim is a simple-path predicate over links,
independent of the traversal code. -/

/-- Total accessors (the default only matters for out-of-range indices,
which well-formedness excludes). -/
def Tree.nodeOf (t : Tree) (l : ℕ) : ℕ := ((t.links.get? l).map LinkRec.node).getD 0

def Tree.outerOf (t : Tree) (l : ℕ) : ℕ := ((t.links.get? l).map LinkRec.outer).getD 0

def Tree.nextOf (t : Tree) (l : ℕ) : ℕ := ((t.links.get? l).map LinkRec.next).getD 0

def Tree.edgeOf (t : Tree) (l : ℕ) : ℕ := ((t.links.get? l).map LinkRec.edge).getD 0

/-- Branch length of the edge referenced by link `l`. -/
def Tree.blOf (t : Tree) (l : ℕ) : ℚ :=
  ((t.edges.get? (t.edgeOf l)).map EdgeRec.branch_length).getD 0

/-- Like `ringOuters`, but collecting the ring links themselves. -/
def Tree.ringWalk (t : Tree) (stop : ℕ) : ℕ → ℕ → Option (List ℕ)
  | 0, _ => none
  | fuel + 1, cur =>
    if cur = stop then some []
    else
      match t.linkAt cur with
      | none => none
      | some c => (t.ringWalk stop fuel c.next).map (fun rest => cur :: rest)

/-- All links around the node of `l`, starting with `l`. -/
def Tree.ringList (t : Tree) (l : ℕ) : Option (List ℕ) :=
  match t.linkAt l with
  | none => none
  | some lr => (t.ringWalk l (t.links.length + 1) lr.next).map (fun rest => l :: rest)

/-- The levelorder visit list seeded at the link of node `u`. -/
def Tree.visitsFrom (t : Tree) (u : ℕ) : Option (List ℕ) :=
  (t.nodeAt u).bind (fun nd => t.levelorder nd.link t.loFuel)

def Tree.linkChecks (t : Tree) : Bool :=
  (List.range t.links.length).all (fun l =>
    match t.links.get? l with
    | none => false
    | some lr =>
        decide (lr.next < t.links.length) && decide (lr.outer < t.links.length)
        && decide (lr.node < t.nodes.length) && decide (lr.edge < t.edges.length)
        && (t.nodeOf lr.next == lr.node)
        && (t.outerOf lr.outer == l))

def Tree.nodeChecks (t : Tree) : Bool :=
  indicesOk NodeRec.idx 0 t.nodes
  && (List.range t.nodes.length).all (fun u =>
    match t.nodes.get? u with
    | none => false
    | some nd => decide (nd.link < t.links.length) && (t.nodeOf nd.link == u))

def Tree.ringChecks (t : Tree) : Bool :=
  (List.range t.links.length).all (fun l1 =>
    (List.range t.links.length).all (fun l2 =>
      (t.nodeOf l1 != t.nodeOf l2)
      || (match t.ringList l1 with
          | none => false
          | some ring => List.contains ring l2)))

def Tree.coverChecks (t : Tree) : Bool :=
  (List.range t.nodes.length).all (fun u =>
    match t.visitsFrom u with
    | none => false
    | some vs =>
        decide ((vs.map t.nodeOf).Nodup)
        && (List.range t.nodes.length).all (fun x => (vs.map t.nodeOf).contains x))

def Tree.wf (t : Tree) : Bool :=
  t.linkChecks && t.nodeChecks && t.ringChecks && t.coverChecks

def Tree.WF (t : Tree) : Prop := t.wf = true

/-- A walk towards `v` given in reverse order: the head of `p` is the link
entering the final node `u`, and the link on the opposite end of each
step leads to the node reached by the remaining walk. -/
def Tree.isRevWalk (t : Tree) (v : ℕ) : ℕ → List ℕ → Bool
  | u, [] => u == v
  | u, l :: rest =>
      decide (l < t.links.length) && (t.nodeOf l == u)
      && t.isRevWalk v (t.nodeOf (t.outerOf l)) rest

/-- The node sequence of a reverse walk, from final node back to `v`. -/
def Tree.revWalkNodes (t : Tree) (v : ℕ) (p : List ℕ) : List ℕ :=
  p.map t.nodeOf ++ [v]

/-- A simple path from `v` to `u`, as a reverse link walk visiting no node
twice. -/
def Tree.IsSimplePathRev (t : Tree) (v u : ℕ) (p : List ℕ) : Prop :=
  t.isRevWalk v u p = true ∧ (t.revWalkNodes v p).Nodup

/-- The sum of the branch lengths of the edges along a path. -/
def Tree.pathWeight (t : Tree) (p : List ℕ) : ℚ :=
  (p.map t.blOf).sum

lemma Tree.nodeOf_eq (t : Tree) {l : ℕ} {lr : LinkRec} (h : t.linkAt l = some lr) :
    t.nodeOf l = lr.node := by
  unfold Tree.nodeOf
  rw [show t.links.get? l = some lr from h]
  rfl

lemma Tree.outerOf_eq (t : Tree) {l : ℕ} {lr : LinkRec} (h : t.linkAt l = some lr) :
    t.outerOf l = lr.outer := by
  unfold Tree.outerOf
  rw [show t.links.get? l = some lr from h]
  rfl

lemma Tree.nextOf_eq (t : Tree) {l : ℕ} {lr : LinkRec} (h : t.linkAt l = some lr) :
    t.nextOf l = lr.next := by
  unfold Tree.nextOf
  rw [show t.links.get? l = some lr from h]
  rfl

lemma Tree.edgeOf_eq (t : Tree) {l : ℕ} {lr : LinkRec} (h : t.linkAt l = some lr) :
    t.edgeOf l = lr.edge := by
  unfold Tree.edgeOf
  rw [show t.links.get? l = some lr from h]
  rfl

lemma Tree.linkAt_isSome (t : Tree) {l : ℕ} (h : l < t.links.length) :
    ∃ lr, t.linkAt l = some lr := by
  unfold Tree.linkAt
  rw [List.get?_eq_get h]
  exact ⟨_, rfl⟩

lemma Tree.wf_parts (t : Tree) (hwf : t.WF) :
    t.linkChecks = true ∧ t.nodeChecks = true ∧ t.ringChecks = true
    ∧ t.coverChecks = true := by
  unfold Tree.WF Tree.wf at hwf
  simp only [Bool.and_eq_true] at hwf
  tauto

lemma Tree.wf_link (t : Tree) (hwf : t.WF) {l : ℕ} (hl : l < t.links.length) :
    t.nextOf l < t.links.length ∧ t.outerOf l < t.links.length
    ∧ t.nodeOf l < t.nodes.length ∧ t.edgeOf l < t.edges.length
    ∧ t.nodeOf (t.nextOf l) = t.nodeOf l ∧ t.outerOf (t.outerOf l) = l := by
  have hchk := (t.wf_parts hwf).1
  unfold Tree.linkChecks at hchk
  rw [List.all_eq_true] at hchk
  have h := hchk l (List.mem_range.mpr hl)
  obtain ⟨lr, hlr⟩ := t.linkAt_isSome hl
  rw [show t.links.get? l = some lr from hlr] at h
  simp only [Bool.and_eq_true, decide_eq_true_eq, beq_iff_eq] at h
  rw [t.nodeOf_eq hlr, t.outerOf_eq hlr, t.nextOf_eq hlr, t.edgeOf_eq hlr]
  exact ⟨h.1.1.1.1.1, h.1.1.1.1.2, h.1.1.1.2, h.1.1.2, h.1.2, h.2⟩

lemma Tree.wf_node (t : Tree) (hwf : t.WF) {u : ℕ} (hu : u < t.nodes.length) :
    ∃ nd, t.nodeAt u = some nd ∧ nd.idx = u ∧ nd.link < t.links.length
      ∧ t.nodeOf nd.link = u := by
  have hchk := (t.wf_parts hwf).2.1
  unfold Tree.nodeChecks at hchk
  rw [Bool.and_eq_true] at hchk
  have hidx := (indicesOk_eq_true_iff NodeRec.idx 0 t.nodes).mp hchk.1
  have hall := hchk.2
  rw [List.all_eq_true] at hall
  have h := hall u (List.mem_range.mpr hu)
  have hsome : t.nodes.get? u = some (t.nodes.get ⟨u, hu⟩) := List.get?_eq_get hu
  rw [hsome] at h
  simp only [Bool.and_eq_true, decide_eq_true_eq, beq_iff_eq] at h
  refine ⟨t.nodes.get ⟨u, hu⟩, hsome, ?_, h.1, h.2⟩
  simpa using hidx u hu

lemma Tree.wf_ring (t : Tree) (hwf : t.WF) {l1 l2 : ℕ}
    (h1 : l1 < t.links.length) (h2 : l2 < t.links.length)
    (heq : t.nodeOf l1 = t.nodeOf l2) :
    ∃ ring, t.ringList l1 = some ring ∧ l2 ∈ ring := by
  have hchk := (t.wf_parts hwf).2.2.1
  unfold Tree.ringChecks at hchk
  rw [List.all_eq_true] at hchk
  have h := hchk l1 (List.mem_range.mpr h1)
  rw [List.all_eq_true] at h
  have h := h l2 (List.mem_range.mpr h2)
  rw [Bool.or_eq_true] at h
  rcases h with h | h
  · simp only [bne_iff_ne, ne_eq] at h
    exact absurd heq h
  · cases hring : t.ringList l1 with
    | none => rw [hring] at h; simp at h
    | some ring =>
      rw [hring] at h
      refine ⟨ring, rfl, ?_⟩
      simpa using h

lemma Tree.wf_cover (t : Tree) (hwf : t.WF) {u : ℕ} (hu : u < t.nodes.length) :
    ∃ vs, t.visitsFrom u = some vs ∧ (vs.map t.nodeOf).Nodup
      ∧ ∀ x, x < t.nodes.length → x ∈ vs.map t.nodeOf := by
  have hchk := (t.wf_parts hwf).2.2.2
  unfold Tree.coverChecks at hchk
  rw [List.all_eq_true] at hchk
  have h := hchk u (List.mem_range.mpr hu)
  cases hvs : t.visitsFrom u with
  | none => rw [hvs] at h; simp at h
  | some vs =>
    rw [hvs] at h
    simp only [Bool.and_eq_true, decide_eq_true_eq] at h
    refine ⟨vs, rfl, h.1, fun x hx => ?_⟩
    have := h.2
    rw [List.all_eq_true] at this
    have := this x (List.mem_range.mpr hx)
    simpa using this

lemma Tree.ringOuters_eq_ringWalk (t : Tree) (stop : ℕ) :
    ∀ fuel cur, t.ringOuters stop fuel cur
      = (t.ringWalk stop fuel cur).map (fun ws => ws.map t.outerOf) := by
  intro fuel
  induction fuel with
  | zero => intro cur; rfl
  | succ fuel ih =>
    intro cur
    unfold Tree.ringOuters Tree.ringWalk
    by_cases h : cur = stop
    · simp [h]
    · rw [if_neg h, if_neg h]
      cases hc : t.linkAt cur with
      | none => rfl
      | some c =>
        simp only [ih, Option.map_map]
        congr 1
        funext ws
        simp [t.outerOf_eq hc]

lemma Tree.ringWalk_mem (t : Tree) (hwf : t.WF) (stop : ℕ) :
    ∀ fuel cur ws, cur < t.links.length → t.ringWalk stop fuel cur = some ws →
      ∀ x ∈ ws, x < t.links.length ∧ t.nodeOf x = t.nodeOf cur := by
  intro fuel
  induction fuel with
  | zero => intro cur ws _ h; simp [Tree.ringWalk] at h
  | succ fuel ih =>
    intro cur ws hcur h x hx
    unfold Tree.ringWalk at h
    by_cases hstop : cur = stop
    · rw [if_pos hstop] at h
      cases h
      simp at hx
    · rw [if_neg hstop] at h
      cases hc : t.linkAt cur with
      | none => simp only [hc] at h; cases h
      | some c =>
        simp only [hc] at h
        cases hw : t.ringWalk stop fuel c.next with
        | none => simp only [hw] at h; simp at h
        | some rest =>
          simp only [hw, Option.map_some] at h
          cases h
          have hlink := t.wf_link hwf hcur
          have hnext : t.nextOf cur = c.next := t.nextOf_eq hc
          rcases List.mem_cons.mp hx with rfl | hx2
          · exact ⟨hcur, rfl⟩
          · have hnlt : c.next < t.links.length := by
              rw [← hnext]; exact hlink.1
            have := ih c.next rest hnlt hw x hx2
            refine ⟨this.1, ?_⟩
            rw [this.2, ← hnext, hlink.2.2.2.2.1]

lemma Tree.ringList_spec (t : Tree) {l : ℕ} {ring : List ℕ}
    (h : t.ringList l = some ring) :
    ∃ lr walk, t.linkAt l = some lr ∧ ring = l :: walk
      ∧ t.ringWalk l (t.links.length + 1) lr.next = some walk
      ∧ t.childOuters l = some (walk.map t.outerOf) := by
  unfold Tree.ringList at h
  cases hc : t.linkAt l with
  | none => simp only [hc] at h; cases h
  | some lr =>
    simp only [hc] at h
    cases hw : t.ringWalk l (t.links.length + 1) lr.next with
    | none => simp only [hw] at h; simp at h
    | some walk =>
      simp only [hw, Option.map_some] at h
      cases h
      refine ⟨lr, walk, rfl, rfl, hw, ?_⟩
      unfold Tree.childOuters
      simp only [hc, t.ringOuters_eq_ringWalk, hw]
      rfl

lemma Tree.ringList_mem (t : Tree) (hwf : t.WF) {l : ℕ} {ring : List ℕ}
    (hl : l < t.links.length) (h : t.ringList l = some ring) :
    ∀ x ∈ ring, x < t.links.length ∧ t.nodeOf x = t.nodeOf l := by
  obtain ⟨lr, walk, hlr, hring, hwalk, _⟩ := t.ringList_spec h
  subst hring
  intro x hx
  rcases List.mem_cons.mp hx with rfl | hx2
  · exact ⟨hl, rfl⟩
  · have hlink := t.wf_link hwf hl
    have hnext : t.nextOf l = lr.next := t.nextOf_eq hlr
    have hnlt : lr.next < t.links.length := by rw [← hnext]; exact hlink.1
    have := t.ringWalk_mem hwf l (t.links.length + 1) lr.next walk hnlt hwalk x hx2
    refine ⟨this.1, ?_⟩
    rw [this.2, ← hnext, hlink.2.2.2.2.1]

lemma Tree.childOuters_mem (t : Tree) (hwf : t.WF) {l : ℕ} {cs : List ℕ}
    (hl : l < t.links.length) (h : t.childOuters l = some cs) :
    ∀ c ∈ cs, c < t.links.length ∧ t.nodeOf (t.outerOf c) = t.nodeOf l := by
  unfold Tree.childOuters at h
  cases hc : t.linkAt l with
  | none => simp only [hc] at h; cases h
  | some lr =>
    simp only [hc, t.ringOuters_eq_ringWalk] at h
    cases hw : t.ringWalk l (t.links.length + 1) lr.next with
    | none => simp only [hw] at h; simp at h
    | some walk =>
      simp only [hw, Option.map_some] at h
      cases h
      intro c hc2
      obtain ⟨r, hr, rfl⟩ := List.mem_map.mp hc2
      have hlink := t.wf_link hwf hl
      have hnext : t.nextOf l = lr.next := t.nextOf_eq hc
      have hnlt : lr.next < t.links.length := by rw [← hnext]; exact hlink.1
      have hrmem := t.ringWalk_mem hwf l (t.links.length + 1) lr.next walk hnlt hw r hr
      have hrlink := t.wf_link hwf hrmem.1
      refine ⟨hrlink.2.1, ?_⟩
      rw [hrlink.2.2.2.2.2, hrmem.2, ← hnext, hlink.2.2.2.2.1]

lemma Tree.levelorderAux_mem_queue (t : Tree) :
    ∀ fuel q vs, t.levelorderAux fuel q = some vs → ∀ x ∈ q, x ∈ vs := by
  intro fuel
  induction fuel with
  | zero =>
    intro q vs h x hx
    cases q with
    | nil => simp at hx
    | cons l rest => simp [Tree.levelorderAux] at h
  | succ fuel ih =>
    intro q vs h x hx
    cases q with
    | nil => simp at hx
    | cons l rest =>
      unfold Tree.levelorderAux at h
      cases hco : t.childOuters l with
      | none => simp only [hco] at h; cases h
      | some cs =>
        simp only [hco] at h
        cases hrec : t.levelorderAux fuel (rest ++ cs) with
        | none => simp only [hrec] at h; simp at h
        | some vs0 =>
          simp only [hrec, Option.map_some] at h
          cases h
          rcases List.mem_cons.mp hx with rfl | hx2
          · exact List.mem_cons_self _ _
          · exact List.mem_cons_of_mem _
              (ih _ _ hrec x (List.mem_append_left _ hx2))

lemma Tree.levelorderAux_closed (t : Tree) :
    ∀ fuel q vs, t.levelorderAux fuel q = some vs →
      ∀ l ∈ vs, ∀ cs, t.childOuters l = some cs → ∀ c ∈ cs, c ∈ vs := by
  intro fuel
  induction fuel with
  | zero =>
    intro q vs h l hl
    cases q with
    | nil => cases h; simp at hl
    | cons a rest => simp [Tree.levelorderAux] at h
  | succ fuel ih =>
    intro q vs h l hl cs hcs c hc
    cases q with
    | nil => cases h; simp at hl
    | cons a rest =>
      unfold Tree.levelorderAux at h
      cases hco : t.childOuters a with
      | none => simp only [hco] at h; cases h
      | some cs0 =>
        simp only [hco] at h
        cases hrec : t.levelorderAux fuel (rest ++ cs0) with
        | none => simp only [hrec] at h; simp at h
        | some vs0 =>
          simp only [hrec, Option.map_some] at h
          cases h
          rcases List.mem_cons.mp hl with rfl | hl2
          · have hcs0 : cs = cs0 := by
              rw [hco] at hcs
              exact (Option.some_inj.mp hcs).symm ▸ rfl
            subst hcs0
            exact List.mem_cons_of_mem _
              (t.levelorderAux_mem_queue fuel _ _ hrec c (List.mem_append_right _ hc))
          · exact List.mem_cons_of_mem _ (ih _ _ hrec l hl2 cs hcs c hc)

lemma Tree.levelorderAux_bounds (t : Tree) (hwf : t.WF) :
    ∀ fuel q vs, t.levelorderAux fuel q = some vs →
      (∀ x ∈ q, x < t.links.length) → ∀ x ∈ vs, x < t.links.length := by
  intro fuel
  induction fuel with
  | zero =>
    intro q vs h hq x hx
    cases q with
    | nil => cases h; simp at hx
    | cons a rest => simp [Tree.levelorderAux] at h
  | succ fuel ih =>
    intro q vs h hq x hx
    cases q with
    | nil => cases h; simp at hx
    | cons a rest =>
      unfold Tree.levelorderAux at h
      cases hco : t.childOuters a with
      | none => simp only [hco] at h; cases h
      | some cs =>
        simp only [hco] at h
        cases hrec : t.levelorderAux fuel (rest ++ cs) with
        | none => simp only [hrec] at h; simp at h
        | some vs0 =>
          simp only [hrec, Option.map_some] at h
          cases h
          have ha : a < t.links.length := hq a (List.mem_cons_self _ _)
          rcases List.mem_cons.mp hx with rfl | hx2
          · exact ha
          · refine ih _ _ hrec ?_ x hx2
            intro y hy
            rcases List.mem_append.mp hy with hy | hy
            · exact hq y (List.mem_cons_of_mem _ hy)
            · exact (t.childOuters_mem hwf ha hco y hy).1

/-- Every visited link enters its node from a node visited strictly
earlier (the seed node is in the initial set `S`). -/
def Tree.ParentOrdered (t : Tree) : List ℕ → List ℕ → Prop
  | _, [] => True
  | S, l :: rest =>
      t.nodeOf (t.outerOf l) ∈ S ∧ t.ParentOrdered (S ++ [t.nodeOf l]) rest

lemma Tree.levelorderAux_parentOrdered (t : Tree) (hwf : t.WF) :
    ∀ fuel q vs S, t.levelorderAux fuel q = some vs →
      (∀ x ∈ q, x < t.links.length) →
      (∀ x ∈ q, t.nodeOf (t.outerOf x) ∈ S) →
      t.ParentOrdered S vs := by
  intro fuel
  induction fuel with
  | zero =>
    intro q vs S h hq hp
    cases q with
    | nil => cases h; trivial
    | cons a rest => simp [Tree.levelorderAux] at h
  | succ fuel ih =>
    intro q vs S h hq hp
    cases q with
    | nil => cases h; trivial
    | cons a rest =>
      unfold Tree.levelorderAux at h
      cases hco : t.childOuters a with
      | none => simp only [hco] at h; cases h
      | some cs =>
        simp only [hco] at h
        cases hrec : t.levelorderAux fuel (rest ++ cs) with
        | none => simp only [hrec] at h; simp at h
        | some vs0 =>
          simp only [hrec, Option.map_some] at h
          cases h
          have ha : a < t.links.length := hq a (List.mem_cons_self _ _)
          refine ⟨hp a (List.mem_cons_self _ _), ?_⟩
          refine ih _ _ _ hrec ?_ ?_
          · intro y hy
            rcases List.mem_append.mp hy with hy | hy
            · exact hq y (List.mem_cons_of_mem _ hy)
            · exact (t.childOuters_mem hwf ha hco y hy).1
          · intro y hy
            rcases List.mem_append.mp hy with hy | hy
            · exact List.mem_append_left _ (hp y (List.mem_cons_of_mem _ hy))
            · have := (t.childOuters_mem hwf ha hco y hy).2
              rw [this]
              exact List.mem_append_right _ (List.mem_singleton.mpr rfl)

lemma Tree.levelorder_wf_spec (t : Tree) (hwf : t.WF) {s fuel : ℕ} {vs : List ℕ}
    (hs : s < t.links.length) (h : t.levelorder s fuel = some vs) :
    ∃ q0 vs0 ring, vs = s :: vs0 ∧ t.levelorderAux fuel q0 = some vs0
      ∧ (∀ x ∈ q0, x < t.links.length)
      ∧ (∀ x ∈ q0, t.nodeOf (t.outerOf x) = t.nodeOf s)
      ∧ t.ringList s = some ring
      ∧ (∀ r ∈ ring, t.outerOf r ∈ q0) := by
  unfold Tree.levelorder at h
  cases hc : t.linkAt s with
  | none => simp only [hc] at h; cases h
  | some lr =>
    simp only [hc, t.ringOuters_eq_ringWalk] at h
    cases hw : t.ringWalk s (t.links.length + 1) lr.next with
    | none => simp only [hw] at h; simp at h
    | some walk =>
      simp only [hw, Option.map_some, Option.map_some'] at h
      cases haux : t.levelorderAux fuel (walk.map t.outerOf ++ [lr.outer]) with
      | none => rw [haux] at h; simp at h
      | some vs0 =>
        rw [haux] at h
        simp only [Option.map_some', Option.some_inj] at h
        have hring : t.ringList s = some (s :: walk) := by
          unfold Tree.ringList
          simp only [hc, hw]
          rfl
        have houts : t.outerOf s = lr.outer := t.outerOf_eq hc
        have hlink := t.wf_link hwf hs
        have hwalkmem := fun x hx =>
          t.ringWalk_mem hwf s (t.links.length + 1) lr.next walk
            (by rw [← t.nextOf_eq hc]; exact hlink.1) hw x hx
        refine ⟨walk.map t.outerOf ++ [lr.outer], vs0, s :: walk, h.symm, haux,
          ?_, ?_, hring, ?_⟩
        · intro x hx
          rcases List.mem_append.mp hx with hx | hx
          · obtain ⟨r, hr, rfl⟩ := List.mem_map.mp hx
            exact (t.wf_link hwf (hwalkmem r hr).1).2.1
          · rw [List.mem_singleton.mp hx, ← houts]
            exact hlink.2.1
        · intro x hx
          rcases List.mem_append.mp hx with hx | hx
          · obtain ⟨r, hr, rfl⟩ := List.mem_map.mp hx
            have hrl := t.wf_link hwf (hwalkmem r hr).1
            rw [hrl.2.2.2.2.2, (hwalkmem r hr).2, ← t.nextOf_eq hc,
              hlink.2.2.2.2.1]
          · rw [List.mem_singleton.mp hx, ← houts, hlink.2.2.2.2.2]
        · intro r hr
          rcases List.mem_cons.mp hr with rfl | hr2
          · rw [houts]
            exact List.mem_append_right _ (List.mem_singleton.mpr rfl)
          · exact List.mem_append_left _ (List.mem_map.mpr ⟨r, hr2, rfl⟩)

/-- Master characterization of a levelorder run seeded at node `u` of a
well-formed tree. -/
lemma Tree.visits_spec (t : Tree) (hwf : t.WF) {u : ℕ} {vs : List ℕ}
    (hu : u < t.nodes.length) (hvs : t.visitsFrom u = some vs) :
    ∃ s vs0, vs = s :: vs0 ∧ s < t.links.length ∧ t.nodeOf s = u
      ∧ (∀ x ∈ vs, x < t.links.length)
      ∧ t.ParentOrdered [u] vs0
      ∧ (vs.map t.nodeOf).Nodup
      ∧ (∀ x, x < t.nodes.length → x ∈ vs.map t.nodeOf)
      ∧ (∀ l ∈ vs0, ∀ cs, t.childOuters l = some cs → ∀ c ∈ cs, c ∈ vs)
      ∧ (∀ r ring, t.ringList s = some ring → r ∈ ring → t.outerOf r ∈ vs) := by
  obtain ⟨nd, hnd, hidx, hlk, hnod⟩ := t.wf_node hwf hu
  obtain ⟨vs2, hvs2, hnodup, hcov⟩ := t.wf_cover hwf hu
  have hvs2 : t.visitsFrom u = some vs := hvs
  unfold Tree.visitsFrom at hvs
  rw [hnd] at hvs
  simp only [Option.some_bind] at hvs
  obtain ⟨q0, vs0, ring, hcons, haux, hq0lt, hq0par, hring, hringq⟩ :=
    t.levelorder_wf_spec hwf hlk hvs
  obtain ⟨vs3, hvs3, hnodup3, hcov3⟩ := t.wf_cover hwf hu
  have heq : vs3 = vs := by
    rw [hvs2] at hvs3
    exact (Option.some_inj.mp hvs3).symm
  subst heq
  refine ⟨nd.link, vs0, hcons, hlk, hnod, ?_, ?_, hnodup3, hcov3, ?_, ?_⟩
  · intro x hx
    rw [hcons] at hx
    rcases List.mem_cons.mp hx with rfl | hx2
    · exact hlk
    · exact t.levelorderAux_bounds hwf _ _ _ haux hq0lt x hx2
  · refine t.levelorderAux_parentOrdered hwf _ _ _ _ haux hq0lt ?_
    intro x hx
    rw [hq0par x hx, hnod]
    exact List.mem_singleton.mpr rfl
  · intro l hl cs hcs c hc
    rw [hcons]
    exact List.mem_cons_of_mem _ (t.levelorderAux_closed _ _ _ haux l hl cs hcs c hc)
  · intro r ring2 hring2 hr
    rw [hring2] at hring
    have : ring = ring2 := (Option.some_inj.mp hring).symm
    subst this
    rw [hcons]
    exact List.mem_cons_of_mem _ (t.levelorderAux_mem_queue _ _ _ haux _ (hringq r hr))

/-- The head of any non-empty simple path from the seed node `v` is a
visited link: the traversal of a well-formed tree enters the final node
of the path exactly through that link. -/
lemma Tree.path_head_mem_visits (t : Tree) (hwf : t.WF) {v : ℕ} {vs : List ℕ}
    (hv : v < t.nodes.length) (hvs : t.visitsFrom v = some vs) :
    ∀ rest hd u, t.IsSimplePathRev v u (hd :: rest) → hd ∈ vs := by
  obtain ⟨s, vs0, hcons, hslt, hsnode, hbound, hpar, hnodup, hcov, hclosed, hseedring⟩ :=
    t.visits_spec hwf hv hvs
  have hinj : ∀ a ∈ vs, ∀ b ∈ vs, t.nodeOf a = t.nodeOf b → a = b := by
    intro a ha b hb hab
    exact List.inj_on_of_nodup_map hnodup ha hb hab
  have hsmem : s ∈ vs := by rw [hcons]; exact List.mem_cons_self _ _
  intro rest
  induction rest with
  | nil =>
    intro hd u hsp
    obtain ⟨hwalk, hnd⟩ := hsp
    unfold Tree.isRevWalk at hwalk
    simp only [Bool.and_eq_true, decide_eq_true_eq, beq_iff_eq] at hwalk
    obtain ⟨⟨hhdlt, hhdnode⟩, hw0⟩ := hwalk
    have hw0v : t.nodeOf (t.outerOf hd) = v := by
      unfold Tree.isRevWalk at hw0
      simpa using hw0
    have huv : u ≠ v := by
      unfold Tree.revWalkNodes at hnd
      simp only [List.map_cons, List.map_nil, List.nil_append, List.cons_append] at hnd
      have := (List.nodup_cons.mp hnd).1
      rw [hhdnode] at this
      simpa using this
    have hu_lt : t.nodeOf hd < t.nodes.length := (t.wf_link hwf hhdlt).2.2.1
    obtain ⟨e, he, henode⟩ := List.mem_map.mp (hcov (t.nodeOf hd) hu_lt)
    by_cases heq : hd = e
    · rw [heq]; exact he
    · have helt : e < t.links.length := hbound e he
      obtain ⟨ring, hring, hmem⟩ := t.wf_ring hwf helt hhdlt henode
      -- hd lies on the ring of e; its outer link is visited, and by
      -- uniqueness it is the seed, so hd is pushed by the seed step.
      · have hy : t.outerOf hd ∈ vs := by
          by_cases hes : e = s
          · subst hes
            exact hseedring hd ring hring hmem
          · have hevs0 : e ∈ vs0 := by
              rw [hcons] at he
              rcases List.mem_cons.mp he with h1 | h2
              · exact absurd h1 hes
              · exact h2
            obtain ⟨lr2, walk2, _, hring2, _, hco2⟩ := t.ringList_spec hring
            have hhdwalk : hd ∈ walk2 := by
              rw [hring2] at hmem
              rcases List.mem_cons.mp hmem with h1 | h2
              · exact absurd h1 heq
              · exact h2
            exact hclosed e hevs0 _ hco2 (t.outerOf hd)
              (List.mem_map.mpr ⟨hd, hhdwalk, rfl⟩)
        have hys : t.outerOf hd = s := by
          refine hinj _ hy _ hsmem ?_
          rw [hw0v, hsnode]
        have hinv : t.outerOf (t.outerOf hd) = hd := (t.wf_link hwf hhdlt).2.2.2.2.2
        obtain ⟨ringS, hringS, hsmemS⟩ :=
          t.wf_ring hwf hslt hslt rfl
        have := hseedring s ringS hringS hsmemS
        rw [← hys, hinv] at this
        exact this
  | cons l0 rest0 ih =>
    intro hd u hsp
    obtain ⟨hwalk, hnd⟩ := hsp
    unfold Tree.isRevWalk at hwalk
    simp only [Bool.and_eq_true, decide_eq_true_eq, beq_iff_eq] at hwalk
    obtain ⟨⟨hhdlt, hhdnode⟩, hwrest⟩ := hwalk
    have hndrest : (t.revWalkNodes v (l0 :: rest0)).Nodup := by
      unfold Tree.revWalkNodes at hnd ⊢
      simp only [List.map_cons, List.cons_append] at hnd
      exact (List.nodup_cons.mp hnd).2
    have huv : u ≠ v := by
      unfold Tree.revWalkNodes at hnd
      simp only [List.map_cons, List.cons_append] at hnd
      have := (List.nodup_cons.mp hnd).1
      rw [hhdnode] at this
      intro hc
      apply this
      rw [hc]
      exact List.mem_cons_of_mem _ (List.mem_append_right _ (List.mem_singleton.mpr rfl))
    have hl0 : l0 ∈ vs := ih l0 (t.nodeOf (t.outerOf hd)) ⟨hwrest, hndrest⟩
    have hwrest2 := hwrest
    unfold Tree.isRevWalk at hwrest2
    simp only [Bool.and_eq_true, decide_eq_true_eq, beq_iff_eq] at hwrest2
    obtain ⟨⟨hl0lt, hl0node⟩, hwrest3⟩ := hwrest2
    have hu_lt : t.nodeOf hd < t.nodes.length := (t.wf_link hwf hhdlt).2.2.1
    obtain ⟨e, he, henode⟩ := List.mem_map.mp (hcov (t.nodeOf hd) hu_lt)
    by_cases heq : hd = e
    · rw [heq]; exact he
    · have helt : e < t.links.length := hbound e he
      obtain ⟨ring, hring, hmem⟩ := t.wf_ring hwf helt hhdlt henode
      -- outer hd is visited: pushed when e (the visit of node u) was processed
      have hy : t.outerOf hd ∈ vs := by
        by_cases hes : e = s
        · subst hes
          exact hseedring hd ring hring hmem
        · have hevs0 : e ∈ vs0 := by
            rw [hcons] at he
            rcases List.mem_cons.mp he with h1 | h2
            · exact absurd h1 hes
            · exact h2
          obtain ⟨lr2, walk2, _, hring2, _, hco2⟩ := t.ringList_spec hring
          have hhdwalk : hd ∈ walk2 := by
            rw [hring2] at hmem
            rcases List.mem_cons.mp hmem with h1 | h2
            · exact absurd h1 heq
            · exact h2
          exact hclosed e hevs0 _ hco2 (t.outerOf hd)
            (List.mem_map.mpr ⟨hd, hhdwalk, rfl⟩)
      -- by uniqueness of the visit of the previous node, outer hd = l0
      have hyl0 : t.outerOf hd = l0 := by
        refine hinj _ hy _ hl0 ?_
        rw [hl0node]
      have hinv : t.outerOf (t.outerOf hd) = hd := (t.wf_link hwf hhdlt).2.2.2.2.2
      -- then the walk after l0 would re-enter the final node u
      have hback : t.nodeOf (t.outerOf l0) = u := by
        rw [← hyl0, hinv, hhdnode]
      exfalso
      cases rest0 with
      | nil =>
        unfold Tree.isRevWalk at hwrest3
        simp only [beq_iff_eq] at hwrest3
        rw [hback] at hwrest3
        exact huv hwrest3
      | cons l1 rest1 =>
        unfold Tree.isRevWalk at hwrest3
        simp only [Bool.and_eq_true, decide_eq_true_eq, beq_iff_eq] at hwrest3
        have hl1node : t.nodeOf l1 = u := by rw [hwrest3.1.2, hback]
        unfold Tree.revWalkNodes at hnd
        simp only [List.map_cons, List.cons_append] at hnd
        have hnotin := (List.nodup_cons.mp hnd).1
        rw [hhdnode] at hnotin
        apply hnotin
        rw [← hl1node]
        exact List.mem_cons_of_mem _ (List.mem_cons_self _ _)

lemma mset_same (m : ℕ → ℕ → ℚ) (i j : ℕ) (v : ℚ) : mset m i j v i j = v := by
  simp [mset]

lemma mset_other (m : ℕ → ℕ → ℚ) (i j : ℕ) (v : ℚ) {a b : ℕ}
    (h : a ≠ i ∨ b ≠ j) : mset m i j v a b = m a b := by
  rcases h with h | h <;> simp [mset, h]

lemma Tree.distStep_eq (t : Tree) (hwf : t.WF) (row : ℕ) (m : ℕ → ℕ → ℚ)
    {l : ℕ} (hl : l < t.links.length) :
    t.distStep row m l
      = some (mset m row (t.nodeOf l)
          (t.blOf l + m row (t.nodeOf (t.outerOf l)))) := by
  obtain ⟨lr, hlr⟩ := t.linkAt_isSome hl
  have hlink := t.wf_link hwf hl
  have hnlt : lr.node < t.nodes.length := by
    rw [← t.nodeOf_eq hlr]; exact hlink.2.2.1
  obtain ⟨nd, hnd, hndidx, _, _⟩ := t.wf_node hwf hnlt
  have holt : lr.outer < t.links.length := by
    rw [← t.outerOf_eq hlr]; exact hlink.2.1
  obtain ⟨olr, holr⟩ := t.linkAt_isSome holt
  have honlt : olr.node < t.nodes.length := by
    rw [← t.nodeOf_eq holr]
    exact (t.wf_link hwf holt).2.2.1
  obtain ⟨pnd, hpnd, hpndidx, _, _⟩ := t.wf_node hwf honlt
  have helt : lr.edge < t.edges.length := by
    rw [← t.edgeOf_eq hlr]; exact hlink.2.2.2.1
  have hed : t.edgeAt lr.edge = some (t.edges.get ⟨lr.edge, helt⟩) :=
    List.get?_eq_get helt
  have hbl : t.blOf l = (t.edges.get ⟨lr.edge, helt⟩).branch_length := by
    unfold Tree.blOf
    rw [t.edgeOf_eq hlr,
      show t.edges.get? lr.edge = some (t.edges.get ⟨lr.edge, helt⟩) from
        List.get?_eq_get helt]
    rfl
  have h1 : t.nodeOf l = lr.node := t.nodeOf_eq hlr
  have h2 : t.nodeOf (t.outerOf l) = olr.node := by
    rw [t.outerOf_eq hlr, t.nodeOf_eq holr]
  unfold Tree.distStep
  rw [hlr]
  simp only [hnd, holr, hpnd, hed, Option.some_bind]
  rw [h1, h2, hbl, hndidx, hpndidx]

lemma Tree.distFold (t : Tree) (hwf : t.WF) (v : ℕ) :
    ∀ rem S m, t.ParentOrdered S rem → (S ++ rem.map t.nodeOf).Nodup →
      (∀ x ∈ rem, x < t.links.length) →
      ∃ m2, List.foldlM (t.distStep v) m rem = some m2
        ∧ (∀ a b, a ≠ v → m2 a b = m a b)
        ∧ (∀ s ∈ S, m2 v s = m v s)
        ∧ (∀ l ∈ rem, m2 v (t.nodeOf l) = t.blOf l + m2 v (t.nodeOf (t.outerOf l))) := by
  intro rem
  induction rem with
  | nil =>
    intro S m _ _ _
    exact ⟨m, by simp, fun a b _ => rfl, fun s _ => rfl, by simp⟩
  | cons l rest ih =>
    intro S m hpo hnd hlt
    have hl : l < t.links.length := hlt l (List.mem_cons_self _ _)
    obtain ⟨hparent, hpo2⟩ := hpo
    have hndl_notS : t.nodeOf l ∉ S := by
      intro hc
      have hdisj := List.disjoint_of_nodup_append hnd
      exact hdisj hc (by simp)
    have hnd2 : ((S ++ [t.nodeOf l]) ++ rest.map t.nodeOf).Nodup := by
      have : (S ++ [t.nodeOf l]) ++ rest.map t.nodeOf
          = S ++ (t.nodeOf l :: rest.map t.nodeOf) := by
        rw [List.append_assoc]
        rfl
      rw [this]
      simpa using hnd
    obtain ⟨m2, hfold, hP1, hP2, hP3⟩ :=
      ih (S ++ [t.nodeOf l])
        (mset m v (t.nodeOf l) (t.blOf l + m v (t.nodeOf (t.outerOf l))))
        hpo2 hnd2 (fun x hx => hlt x (List.mem_cons_of_mem _ hx))
    refine ⟨m2, ?_, ?_, ?_, ?_⟩
    · rw [List.foldlM_cons, t.distStep_eq hwf v m hl]
      simpa using hfold
    · intro a b ha
      rw [hP1 a b ha, mset_other _ _ _ _ (Or.inl ha)]
    · intro s hs
      rw [hP2 s (List.mem_append_left _ hs),
        mset_other _ _ _ _ (Or.inr (fun hc => hndl_notS (by rw [← hc]; exact hs)))]
    · intro l2 hl2
      rcases List.mem_cons.mp hl2 with rfl | hl2r
      · have hw : m2 v (t.nodeOf l2) = t.blOf l2 + m v (t.nodeOf (t.outerOf l2)) := by
          rw [hP2 (t.nodeOf l2) (List.mem_append_right _ (by simp)), mset_same]
        rw [hw]
        congr 1
        rw [hP2 (t.nodeOf (t.outerOf l2)) (List.mem_append_left _ hparent),
          mset_other _ _ _ _ (Or.inr (fun hc => hndl_notS (by rw [← hc]; exact hparent)))]
      · exact hP3 l2 hl2r

/-- Correctness of one matrix row: the computed row satisfies the
diagonal and parent-edge equations, and no other row is modified. -/
lemma Tree.distRow_spec (t : Tree) (hwf : t.WF) {nd : NodeRec}
    (hmem : t.nodeAt nd.idx = some nd) (m : ℕ → ℕ → ℚ) :
    ∃ vs m2, t.visitsFrom nd.idx = some vs ∧ t.distRow m nd = some m2
      ∧ (∀ a b, a ≠ nd.idx → m2 a b = m a b)
      ∧ m2 nd.idx nd.idx = 0
      ∧ (∀ l ∈ vs.drop 1,
          m2 nd.idx (t.nodeOf l) = t.blOf l + m2 nd.idx (t.nodeOf (t.outerOf l))) := by
  have hu : nd.idx < t.nodes.length := by
    have := List.get?_eq_some.mp hmem
    exact this.choose
  obtain ⟨vs, hvs, _, _⟩ := t.wf_cover hwf hu
  have hlev : t.levelorder nd.link t.loFuel = some vs := by
    unfold Tree.visitsFrom at hvs
    rw [hmem] at hvs
    simpa using hvs
  obtain ⟨s, vs0, hcons, hslt, hsnode, hbound, hpar, hnodup, hcov, _, _⟩ :=
    t.visits_spec hwf hu hvs
  have hdrop : vs.drop 1 = vs0 := by rw [hcons]; rfl
  have hndS : ([nd.idx] ++ vs0.map t.nodeOf).Nodup := by
    have hmapv : vs.map t.nodeOf = nd.idx :: vs0.map t.nodeOf := by
      rw [hcons, List.map_cons, hsnode]
    have h2 : (nd.idx :: vs0.map t.nodeOf).Nodup := hmapv ▸ hnodup
    simpa using h2
  obtain ⟨m2, hfold, hP1, hP2, hP3⟩ :=
    t.distFold hwf nd.idx vs0 [nd.idx] (mset m nd.idx nd.idx 0) hpar hndS
      (fun x hx => hbound x (by rw [hcons]; exact List.mem_cons_of_mem _ hx))
  refine ⟨vs, m2, hvs, ?_, ?_, ?_, ?_⟩
  · unfold Tree.distRow
    simp only [hlev, hdrop]
    exact hfold
  · intro a b ha
    rw [hP1 a b ha, mset_other _ _ _ _ (Or.inl ha)]
  · rw [hP2 nd.idx (by simp), mset_same]
  · rw [hdrop]
    exact hP3

/-- The idx fields of the node records enumerate the positions. -/
lemma Tree.nodes_idx_map (t : Tree) (hwf : t.WF) :
    t.nodes.map NodeRec.idx = List.range t.nodes.length := by
  have hchk := (t.wf_parts hwf).2.1
  unfold Tree.nodeChecks at hchk
  rw [Bool.and_eq_true] at hchk
  have hidx := (indicesOk_eq_true_iff NodeRec.idx 0 t.nodes).mp hchk.1
  apply List.ext_get
  · simp
  · intro n h1 h2
    simp only [List.get_map, List.get_range]
    simpa using hidx n (by simpa using h1)

lemma Tree.nodeAt_self (t : Tree) (hwf : t.WF) {nd : NodeRec} (h : nd ∈ t.nodes) :
    t.nodeAt nd.idx = some nd := by
  obtain ⟨⟨k, hk⟩, hget⟩ := List.mem_iff_get.mp h
  have hchk := (t.wf_parts hwf).2.1
  unfold Tree.nodeChecks at hchk
  rw [Bool.and_eq_true] at hchk
  have hidx := (indicesOk_eq_true_iff NodeRec.idx 0 t.nodes).mp hchk.1
  have : nd.idx = k := by
    have := hidx k hk
    rw [hget] at this
    simpa using this
  rw [this]
  unfold Tree.nodeAt
  rw [List.get?_eq_get hk, hget]

/-- Folding `distRow` over a set of node records with distinct indices
computes every row correctly. -/
lemma Tree.distRows_fold (t : Tree) (hwf : t.WF) :
    ∀ (ns : List NodeRec) (m : ℕ → ℕ → ℚ),
      (∀ nd ∈ ns, t.nodeAt nd.idx = some nd) →
      (ns.map NodeRec.idx).Nodup →
      ∃ M, List.foldlM t.distRow m ns = some M
        ∧ (∀ nd ∈ ns, ∃ vs, t.visitsFrom nd.idx = some vs
            ∧ M nd.idx nd.idx = 0
            ∧ (∀ l ∈ vs.drop 1,
                M nd.idx (t.nodeOf l) = t.blOf l + M nd.idx (t.nodeOf (t.outerOf l))))
        ∧ (∀ a b, a ∉ ns.map NodeRec.idx → M a b = m a b) := by
  intro ns
  induction ns with
  | nil =>
    intro m _ _
    exact ⟨m, by simp, by simp, fun a b _ => rfl⟩
  | cons nd rest ih =>
    intro m hself hnd
    obtain ⟨vs, m1, hvs, hrow, hother, hdiag, heqs⟩ :=
      t.distRow_spec hwf (hself nd (List.mem_cons_self _ _)) m
    have hndrest : (rest.map NodeRec.idx).Nodup := (List.nodup_cons.mp hnd).2
    have hnotin : nd.idx ∉ rest.map NodeRec.idx := (List.nodup_cons.mp hnd).1
    obtain ⟨M, hfold, hrows, huntouched⟩ :=
      ih m1 (fun x hx => hself x (List.mem_cons_of_mem _ hx)) hndrest
    refine ⟨M, ?_, ?_, ?_⟩
    · rw [List.foldlM_cons, hrow]
      simpa using hfold
    · intro nd2 hnd2
      rcases List.mem_cons.mp hnd2 with rfl | hnd2r
      · refine ⟨vs, hvs, ?_, ?_⟩
        · rw [huntouched nd2.idx nd2.idx hnotin]
          exact hdiag
        · intro l hl
          rw [huntouched nd2.idx (t.nodeOf l) hnotin,
            huntouched nd2.idx (t.nodeOf (t.outerOf l)) hnotin]
          exact heqs l hl
      · exact hrows nd2 hnd2r
    · intro a b ha
      rw [huntouched a b (fun hc => ha (List.mem_cons_of_mem _ hc)),
        hother a b (fun hc => ha (by rw [hc]; exact List.mem_cons_self _ _))]

/-- A row of the final matrix assigns, to every target of a simple path
from the row node, the weight of that path. -/
lemma Tree.row_path_weight (t : Tree) (hwf : t.WF) {u : ℕ} {vs : List ℕ}
    {M : ℕ → ℕ → ℚ} (hu : u < t.nodes.length)
    (hvs : t.visitsFrom u = some vs) (hdiag : M u u = 0)
    (heqs : ∀ l ∈ vs.drop 1,
      M u (t.nodeOf l) = t.blOf l + M u (t.nodeOf (t.outerOf l))) :
    ∀ p x, t.IsSimplePathRev u x p → M u x = t.pathWeight p := by
  obtain ⟨s, vs0, hcons, hslt, hsnode, hbound, hpar, hnodup, hcov, hclosed, hseedring⟩ :=
    t.visits_spec hwf hu hvs
  have hdrop : vs.drop 1 = vs0 := by rw [hcons]; rfl
  intro p
  induction p with
  | nil =>
    intro x hsp
    obtain ⟨hwalk, _⟩ := hsp
    unfold Tree.isRevWalk at hwalk
    simp only [beq_iff_eq] at hwalk
    rw [hwalk]
    unfold Tree.pathWeight
    simpa using hdiag
  | cons hd rest ihp =>
    intro x hsp
    have hhd : hd ∈ vs := t.path_head_mem_visits hwf hu hvs rest hd x hsp
    obtain ⟨hwalk, hndp⟩ := hsp
    unfold Tree.isRevWalk at hwalk
    simp only [Bool.and_eq_true, decide_eq_true_eq, beq_iff_eq] at hwalk
    obtain ⟨⟨hhdlt, hhdnode⟩, hwrest⟩ := hwalk
    have hxu : x ≠ u := by
      unfold Tree.revWalkNodes at hndp
      simp only [List.map_cons, List.cons_append] at hndp
      have := (List.nodup_cons.mp hndp).1
      rw [hhdnode] at this
      intro hc
      apply this
      rw [hc]
      exact List.mem_append_right _ (List.mem_singleton.mpr rfl)
    have hhd0 : hd ∈ vs0 := by
      rw [hcons] at hhd
      rcases List.mem_cons.mp hhd with rfl | h2
      · exact absurd (hhdnode ▸ hsnode) hxu
      · exact h2
    have hrest : t.IsSimplePathRev u (t.nodeOf (t.outerOf hd)) rest := by
      refine ⟨hwrest, ?_⟩
      unfold Tree.revWalkNodes at hndp ⊢
      simp only [List.map_cons, List.cons_append] at hndp
      exact (List.nodup_cons.mp hndp).2
    have heq := heqs hd (hdrop ▸ hhd0)
    rw [hhdnode] at heq
    have hw : t.pathWeight (hd :: rest) = t.blOf hd + t.pathWeight rest := by
      unfold Tree.pathWeight
      simp
    rw [hw, heq, ihp (t.nodeOf (t.outerOf hd)) hrest]

/-- C6: on every well-formed non-empty tree, `NodeDistanceMatrix` returns
a matrix whose diagonal is zero and whose (i, j) entry is the sum of the
branch lengths of the edges on any simple path from node i to node j
(well-formedness includes that every levelorder enumeration visits every
node exactly once, so simple paths are unique). -/
theorem C6_node_distance_matrix_path_sums (t : Tree) (hwf : t.WF)
    (hne : 0 < t.nodes.length) :
    ∃ M, t.NodeDistanceMatrix = some M
      ∧ (∀ u, u < t.nodes.length → M u u = 0)
      ∧ (∀ u x p, u < t.nodes.length →
          t.IsSimplePathRev u x p → M u x = t.pathWeight p) := by
  have hnodup : (t.nodes.map NodeRec.idx).Nodup := by
    rw [t.nodes_idx_map hwf]
    exact List.nodup_range _
  obtain ⟨M, hfold, hrows, _⟩ :=
    t.distRows_fold hwf t.nodes (fun _ _ => 0)
      (fun nd hnd => t.nodeAt_self hwf hnd) hnodup
  have hrowOf : ∀ u, u < t.nodes.length →
      ∃ vs, t.visitsFrom u = some vs ∧ M u u = 0
        ∧ (∀ l ∈ vs.drop 1,
            M u (t.nodeOf l) = t.blOf l + M u (t.nodeOf (t.outerOf l))) := by
    intro u hu
    obtain ⟨nd, hnd, hidx, _, _⟩ := t.wf_node hwf hu
    have hmem : nd ∈ t.nodes := by
      unfold Tree.nodeAt at hnd
      exact List.get?_mem hnd
    obtain ⟨vs, hvs, hdiag, heqs⟩ := hrows nd hmem
    rw [hidx] at hvs hdiag heqs
    exact ⟨vs, hvs, hdiag, heqs⟩
  refine ⟨M, ?_, ?_, ?_⟩
  · unfold Tree.NodeDistanceMatrix
    exact hfold
  · intro u hu
    obtain ⟨vs, _, hdiag, _⟩ := hrowOf u hu
    exact hdiag
  · intro u x p hu hp
    obtain ⟨vs, hvs, hdiag, heqs⟩ := hrowOf u hu
    exact t.row_path_weight hwf hu hvs hdiag heqs p x hp

/-- Witness for C6 at the proper two-node tree: the matrix entry for the
path across the single edge is its branch length 1, the diagonal is 0. -/
theorem C6_witness :
    (twoNodeTree.NodeDistanceMatrix).map (fun M => (M 0 0, M 0 1)) = some (0, 1) := by
  obtain ⟨M, hM, hdiag, hpath⟩ :=
    C6_node_distance_matrix_path_sums twoNodeTree
      (by show twoNodeTree.wf = true; decide) (by decide)
  rw [hM]
  have h1 : M 0 0 = 0 := hdiag 0 (by decide)
  have h2 : M 0 1 = twoNodeTree.pathWeight [1] := by
    refine hpath 0 1 [1] (by decide) ⟨by decide, by decide⟩
  rw [Option.map_some']
  rw [h1, h2]
  norm_num [Tree.pathWeight, Tree.blOf, Tree.edgeOf, twoNodeTree]

/-- C7: the document of every Sample has the five field names in jplace
order, version 3, and every emitted placement tuple carries
`branch_length - proximal_length` as its fourth (distal length) entry. -/
theorem C7_jplace_document_fields_version_distal (smp : Sample)
    (treeStr invocation : String) :
    (JplaceWriter.to_document smp treeStr invocation).get "fields"
      = some (Json.arr [Json.str "edge_num", Json.str "likelihood",
          Json.str "like_weight_ratio", Json.str "distal_length",
          Json.str "pendant_length"])
    ∧ (JplaceWriter.to_document smp treeStr invocation).get "version"
      = some (Json.num 3)
    ∧ (JplaceWriter.to_document smp treeStr invocation).get "placements"
      = some (Json.arr (smp.pqueries.map pqueryJson))
    ∧ (∀ q ∈ smp.pqueries,
        (pqueryJson q).get "p" = some (Json.arr (q.placements.map placementJson))
        ∧ ∀ p ∈ q.placements,
            (placementJson p).at 3 = some (Json.num (p.branch_length - p.proximal_length))) := by
  refine ⟨rfl, rfl, rfl, ?_⟩
  intro q hq
  constructor
  · unfold pqueryJson Json.get
    cases h : q.names.any (fun n => n.multiplicity != 0) <;> simp
  · intro p hp
    rfl

/-- Witness for C7 at a sample with one pquery holding one placement. -/
theorem C7_witness :
    (pqueryJson (WPquery.mk [WPlacement.mk 4 (-1) 1 2 0 5] [])).get "p"
        = some (Json.arr [placementJson (WPlacement.mk 4 (-1) 1 2 0 5)])
    ∧ (placementJson (WPlacement.mk 4 (-1) 1 2 0 5)).at 3 = some (Json.num 3) :=
  ⟨((C7_jplace_document_fields_version_distal
        (Sample.mk [WPquery.mk [WPlacement.mk 4 (-1) 1 2 0 5] []]) "t" "i").2.2.2
      (WPquery.mk [WPlacement.mk 4 (-1) 1 2 0 5] []) (by simp)).1,
   by
    have := ((C7_jplace_document_fields_version_distal
        (Sample.mk [WPquery.mk [WPlacement.mk 4 (-1) 1 2 0 5] []]) "t" "i").2.2.2
      (WPquery.mk [WPlacement.mk 4 (-1) 1 2 0 5] []) (by simp)).2
      (WPlacement.mk 4 (-1) 1 2 0 5) (by simp)
    rw [this]
    norm_num⟩

/-- C10: the pquery object carries the key `nm` (with every name
serialized as a name/multiplicity pair) exactly when some name has
nonzero multiplicity, carries the key `n` (with the bare name strings)
exactly otherwise, and never carries both. -/
theorem C10_jplace_nm_versus_n (q : WPquery) :
    ((pqueryJson q).hasKey "nm" = true ↔ ∃ n ∈ q.names, n.multiplicity ≠ 0)
    ∧ ((pqueryJson q).hasKey "n" = true ↔ ¬∃ n ∈ q.names, n.multiplicity ≠ 0)
    ∧ ¬((pqueryJson q).hasKey "nm" = true ∧ (pqueryJson q).hasKey "n" = true)
    ∧ ((pqueryJson q).hasKey "nm" = true →
        (pqueryJson q).get "nm" = some (Json.arr (q.names.map
          (fun n => Json.arr [Json.str n.name, Json.num n.multiplicity]))))
    ∧ ((pqueryJson q).hasKey "n" = true →
        (pqueryJson q).get "n" = some (Json.arr (q.names.map
          (fun n => Json.str n.name)))) := by
  have hiff : q.names.any (fun n => n.multiplicity != 0) = true
      ↔ ∃ n ∈ q.names, n.multiplicity ≠ 0 := by
    rw [List.any_eq_true]
    constructor
    · rintro ⟨n, hn, hne⟩
      exact ⟨n, hn, by simpa using hne⟩
    · rintro ⟨n, hn, hne⟩
      exact ⟨n, hn, by simpa using hne⟩
  cases h : q.names.any (fun n => n.multiplicity != 0) with
  | false =>
    have hno : ¬∃ n ∈ q.names, n.multiplicity ≠ 0 := by
      rw [← hiff, h]; simp
    refine ⟨?_, ?_, ?_, ?_, ?_⟩
    · simp [pqueryJson, Json.hasKey, h, hno]
    · simp [pqueryJson, Json.hasKey, h, hno]
    · simp [pqueryJson, Json.hasKey, h]
    · simp [pqueryJson, Json.hasKey, h]
    · simp [pqueryJson, Json.hasKey, Json.get, h]
  | true =>
    have hyes : ∃ n ∈ q.names, n.multiplicity ≠ 0 := hiff.mp h
    refine ⟨?_, ?_, ?_, ?_, ?_⟩
    · simp [pqueryJson, Json.hasKey, h, hyes]
    · simp [pqueryJson, Json.hasKey, h, hyes]
    · simp [pqueryJson, Json.hasKey, h]
    · simp [pqueryJson, Json.hasKey, Json.get, h]
    · simp [pqueryJson, Json.hasKey, h]

/-- Witness for C10 on two pqueries: one name of multiplicity 2 (the `nm`
side) and one name of multiplicity 0 (the `n` side with its contents). -/
theorem C10_witness :
    (pqueryJson (WPquery.mk [] [WName.mk "abc" 2])).hasKey "nm" = true
    ∧ (pqueryJson (WPquery.mk [] [WName.mk "abc" 2])).hasKey "n" = false
    ∧ (pqueryJson (WPquery.mk [] [WName.mk "abc" 0])).get "n"
        = some (Json.arr [Json.str "abc"]) :=
  ⟨(C10_jplace_nm_versus_n (WPquery.mk [] [WName.mk "abc" 2])).1.mpr
      ⟨WName.mk "abc" 2, by simp, by norm_num⟩,
   by
    have h3 := (C10_jplace_nm_versus_n (WPquery.mk [] [WName.mk "abc" 2])).2.2.1
    have h1 := (C10_jplace_nm_versus_n (WPquery.mk [] [WName.mk "abc" 2])).1.mpr
      ⟨WName.mk "abc" 2, by simp, by norm_num⟩
    cases hk : (pqueryJson (WPquery.mk [] [WName.mk "abc" 2])).hasKey "n" with
    | false => rfl
    | true => exact absurd ⟨h1, hk⟩ h3,
   by
    have hn := (C10_jplace_nm_versus_n (WPquery.mk [] [WName.mk "abc" 0])).2.1.mpr
      (by simp)
    have := (C10_jplace_nm_versus_n (WPquery.mk [] [WName.mk "abc" 0])).2.2.2.2 hn
    simpa using this⟩

/-- C8: `to_file` returns false and leaves the whole file system unchanged
when the target exists; otherwise it returns true, writes the document for
the Sample to the target, and leaves every other file unchanged. -/
theorem C8_to_file_never_overwrites (fs : FileSys) (smp : Sample)
    (treeStr invocation filename : String) :
    ((fs filename).isSome →
      JplaceWriter.to_file fs smp treeStr invocation filename = (false, fs))
    ∧ ((fs filename).isNone →
        (JplaceWriter.to_file fs smp treeStr invocation filename).1 = true
        ∧ (JplaceWriter.to_file fs smp treeStr invocation filename).2 filename
            = some (JplaceWriter.to_document smp treeStr invocation)
        ∧ ∀ n, n ≠ filename →
            (JplaceWriter.to_file fs smp treeStr invocation filename).2 n = fs n) := by
  constructor
  · intro h
    unfold JplaceWriter.to_file
    rw [if_pos (by simpa [file_exists] using h)]
  · intro h
    have hex : file_exists fs filename = false := by
      simp [file_exists, Option.isNone_iff_eq_none.mp h]
    unfold JplaceWriter.to_file
    rw [if_neg (by simp [hex])]
    refine ⟨rfl, by simp, fun n hn => by simp [hn]⟩

/-- Witness for C8 with a file system holding exactly one file. -/
theorem C8_witness :
    JplaceWriter.to_file (fun n => if n = "a.jplace" then some (Json.num 0) else none)
      (Sample.mk []) "t" "i" "a.jplace"
      = (false, fun n => if n = "a.jplace" then some (Json.num 0) else none)
    ∧ (JplaceWriter.to_file (fun n => if n = "a.jplace" then some (Json.num 0) else none)
        (Sample.mk []) "t" "i" "b.jplace").2 "b.jplace"
      = some (JplaceWriter.to_document (Sample.mk []) "t" "i") :=
  ⟨(C8_to_file_never_overwrites (fun n => if n = "a.jplace" then some (Json.num 0) else none)
      (Sample.mk []) "t" "i" "a.jplace").1 (by simp),
   ((C8_to_file_never_overwrites (fun n => if n = "a.jplace" then some (Json.num 0) else none)
      (Sample.mk []) "t" "i" "b.jplace").2 (by simp)).2.1⟩
